import Mathlib

/-!
# Verification of `ijcringbuffer.h`

A shallow embedding of the continuous ring buffer implemented in
`src/ijcringbuffer.h` (incrediblejr/ijcringbuffer), together with proofs about
its cursor arithmetic.

The C code keeps three `unsigned` (32-bit) cursors `read_cursor`,
`write_cursor`, `wrap_cursor` that wrap modulo `2^32`; we model them as `Nat`
values below `2^32` with every cursor update taken `% 2^32`, and model the
byte storage as a `List Nat` of length `size`.  `memcpy` into the storage is
modelled by `writeBytes`; a returned data pointer (`peek`) is modelled as the
physical offset into the storage it points at.

Capacities are powers of two, as `ijcringbuffer_init` asserts.  The design
additionally relies on the cursor gap staying below half of the counter
range so that the circular-distance split detection is unambiguous; since the
gap between `read_cursor` and `write_cursor` can reach `3 * size` in the split
state, capacities are bounded by `2^29` in the reachable-state model (for
`size = 2^30` and `size = 2^31` the split detection ambiguity is reachable and
the structure misbehaves, which the design documentation names as an
out-of-contract regime).
-/

set_option autoImplicit false

/-- The modulus of C `unsigned` (32-bit) arithmetic; all cursor arithmetic in
`ijcringbuffer.h` happens modulo this value. -/
def UINT_MOD : Nat := 4294967296

/-- Unsigned 32-bit subtraction `a - b` (wraparound semantics), for
`a b < UINT_MOD`.  This models every `x - y` on `unsigned` values in the C
source. -/
def usub (a b : Nat) : Nat := (a + UINT_MOD - b) % UINT_MOD

/-- `struct ijcringbuffer`.  `data` is the borrowed byte storage (modelled as
the list of its `size` bytes), `mask = size - 1`, and the three cursors are
free-running 32-bit counters. -/
structure ijcringbuffer where
  data : List Nat
  size : Nat
  mask : Nat
  read_cursor : Nat
  write_cursor : Nat
  wrap_cursor : Nat
deriving Repr, DecidableEq

/-- `memcpy(data + off, indata, indata.length)` on list-modelled storage:
replaces the bytes at physical offsets `[off, off + indata.length)`. -/
def writeBytes (data : List Nat) (off : Nat) (indata : List Nat) : List Nat :=
  data.take off ++ indata ++ data.drop (off + indata.length)

/-- The `n` bytes of storage starting at physical offset `off` (what a reader
sees through a pointer `data + off`). -/
def readBytes (data : List Nat) (off n : Nat) : List Nat :=
  (data.drop off).take n

/-- `ijcringbuffer_init`: stores the byte buffer, sets `mask = data_size - 1`
and zeroes the three cursors.  (The C code asserts that `data_size` is a
nonzero power of two; that precondition lives in `Reach.init`.) -/
def ijcringbuffer_init (data : List Nat) (data_size : Nat) : ijcringbuffer :=
  { data := data, size := data_size, mask := data_size - 1,
    read_cursor := 0, write_cursor := 0, wrap_cursor := 0 }

/-- `ijcringbuffer_reset`: zeroes the three cursors, leaves storage bytes. -/
def ijcringbuffer_reset (s : ijcringbuffer) : ijcringbuffer :=
  { s with read_cursor := 0, write_cursor := 0, wrap_cursor := 0 }

/-- `ijcringbuffer__difference`: the circular distance
`min((a-b) mod 2^32, (b-a) mod 2^32)` between two modular counters. -/
def ijcringbuffer__difference (a b : Nat) : Nat :=
  if usub a b > usub b a then usub b a else usub a b

/-- `ijcringbuffer__is_split`: the buffer is split iff the circular distance
between `read_cursor` and `write_cursor` exceeds `size`. -/
def ijcringbuffer__is_split (s : ijcringbuffer) : Bool :=
  ijcringbuffer__difference s.read_cursor s.write_cursor > s.size

/-- `ijcringbuffer_peek`, modelled as the physical offset of the returned
pointer into `data` (the C function returns `self->data + offset`).  It is a
pure function of the state: it modifies nothing. -/
def ijcringbuffer_peek (s : ijcringbuffer) : Nat :=
  if s.read_cursor = s.wrap_cursor ∧ ijcringbuffer__is_split s then 0
  else s.read_cursor &&& s.mask

/-- `ijcringbuffer__consumeable_size(self, continuous)`. -/
def ijcringbuffer__consumeable_size (s : ijcringbuffer) (continuous : Bool) : Nat :=
  if ijcringbuffer__is_split s then
    if s.read_cursor = s.wrap_cursor then
      let masked_write := s.write_cursor &&& s.mask
      if masked_write ≠ 0 then masked_write else s.size
    else
      ((usub s.wrap_cursor s.read_cursor) &&& s.mask) +
        (if continuous then 0 else s.write_cursor &&& s.mask)
  else
    usub s.write_cursor s.read_cursor

/-- `ijcringbuffer_consumeable_size_continuous`. -/
def ijcringbuffer_consumeable_size_continuous (s : ijcringbuffer) : Nat :=
  ijcringbuffer__consumeable_size s true

/-- `ijcringbuffer_consumeable_size`. -/
def ijcringbuffer_consumeable_size (s : ijcringbuffer) : Nat :=
  ijcringbuffer__consumeable_size s false

/-- `ijcringbuffer_consume(self, size)`: advances the read cursor; in the
split-collapse case (tail fully drained) it overshoots to land back in the
unsplit regime. -/
def ijcringbuffer_consume (s : ijcringbuffer) (size : Nat) : ijcringbuffer :=
  if s.read_cursor = s.wrap_cursor ∧ ijcringbuffer__is_split s then
    { s with read_cursor :=
        (s.read_cursor + s.size + usub s.size (s.read_cursor &&& s.mask) + size)
          % UINT_MOD }
  else
    { s with read_cursor := (s.read_cursor + size) % UINT_MOD }

/-- `ijcringbuffer_is_empty`. -/
def ijcringbuffer_is_empty (s : ijcringbuffer) : Bool :=
  s.write_cursor == s.read_cursor

/-- `ijcringbuffer_is_full`. -/
def ijcringbuffer_is_full (s : ijcringbuffer) : Bool :=
  ijcringbuffer_consumeable_size s == s.size

/-- The `write_to_front:` label of `ijcringbuffer_produce`: record the wrap
position, copy the run to physical offset 0, and inflate `write_cursor` by
`size + (size - masked_write) + insize`, which is the split signal. -/
def ijcringbuffer__write_to_front (s : ijcringbuffer) (indata : List Nat) :
    ijcringbuffer × Bool :=
  ({ s with wrap_cursor := s.write_cursor,
            data := writeBytes s.data 0 indata,
            write_cursor :=
              (s.write_cursor + s.size + usub s.size (s.write_cursor &&& s.mask)
                + indata.length) % UINT_MOD },
   true)

/-- The `check_front:` label of `ijcringbuffer_produce`: write to the front if
the run fits below the read cursor's physical offset, else fail. -/
def ijcringbuffer__check_front (s : ijcringbuffer) (indata : List Nat) :
    ijcringbuffer × Bool :=
  if s.read_cursor &&& s.mask ≥ indata.length then
    ijcringbuffer__write_to_front s indata
  else (s, false)

/-- `ijcringbuffer_produce(self, indata, insize)` with `insize` the length of
the modelled input run; returns the new state and the success flag
(`1`/`0` in C). -/
def ijcringbuffer_produce (s : ijcringbuffer) (indata : List Nat) :
    ijcringbuffer × Bool :=
  if ijcringbuffer__is_split s then
    -- `avail_write_size` of the C code is the scrutinee of this comparison
    if (if s.wrap_cursor = s.read_cursor then
          if s.write_cursor &&& s.mask ≠ 0 then
            usub s.size (s.write_cursor &&& s.mask)
          else 0
        else
          (usub s.read_cursor s.write_cursor) &&& s.mask) ≥ indata.length then
      ({ s with data := writeBytes s.data (s.write_cursor &&& s.mask) indata,
                write_cursor := (s.write_cursor + indata.length) % UINT_MOD },
       true)
    else (s, false)
  else
    if s.write_cursor &&& s.mask ≠ 0 ∧ s.write_cursor = s.read_cursor
        ∧ s.size ≥ indata.length then
      ijcringbuffer__write_to_front s indata
    else if s.write_cursor &&& s.mask = 0 ∧ ¬s.write_cursor = s.read_cursor then
      ijcringbuffer__check_front s indata
    else if usub s.size (s.write_cursor &&& s.mask) ≥ indata.length then
      ({ s with data := writeBytes s.data (s.write_cursor &&& s.mask) indata,
                write_cursor := (s.write_cursor + indata.length) % UINT_MOD },
       true)
    else
      ijcringbuffer__check_front s indata

/-- Reachable ring-buffer states: obtained from `ijcringbuffer_init` on a
power-of-two capacity by any sequence of `reset`, `produce` of nonempty byte
runs, and `consume` calls respecting the documented precondition
`size ≤ consumeable_size_continuous`.  The capacity bound `k ≤ 29` is the
design limit discussed in the header comment of this file. -/
inductive Reach : ijcringbuffer → Prop where
  | init (data : List Nat) (k : Nat) (hk : k ≤ 29) (hlen : data.length = 2 ^ k) :
      Reach (ijcringbuffer_init data (2 ^ k))
  | reset {s : ijcringbuffer} (h : Reach s) : Reach (ijcringbuffer_reset s)
  | produce {s : ijcringbuffer} (indata : List Nat) (h : Reach s)
      (hpos : 0 < indata.length) : Reach (ijcringbuffer_produce s indata).1
  | consume {s : ijcringbuffer} (n : Nat) (h : Reach s)
      (hn : n ≤ ijcringbuffer_consumeable_size_continuous s) :
      Reach (ijcringbuffer_consume s n)

/-- The (modular) number of logical bytes between read and write cursor. -/
def gap (s : ijcringbuffer) : Nat := usub s.write_cursor s.read_cursor

/-- The (modular) number of logical bytes between read and wrap cursor: in a
split state, the not-yet-consumed length of the tail run. -/
def tailGap (s : ijcringbuffer) : Nat := usub s.wrap_cursor s.read_cursor

/-- The physical offset of the read cursor. -/
def rOff (s : ijcringbuffer) : Nat := s.read_cursor % s.size

/-- In a split state, the length of the front run: the write cursor's physical
offset, except that offset 0 means the front run fills the whole buffer. -/
def frontLen (s : ijcringbuffer) : Nat :=
  if s.write_cursor % s.size = 0 then s.size else s.write_cursor % s.size

/-- Well-formedness of the fixed fields: power-of-two capacity within the
design limit, derived mask, storage of exactly `size` bytes, cursors reduced
modulo `2^32`. -/
def InvBase (s : ijcringbuffer) : Prop :=
  (∃ k, k ≤ 29 ∧ s.size = 2 ^ k) ∧ s.mask = s.size - 1 ∧
  s.data.length = s.size ∧
  s.read_cursor < UINT_MOD ∧ s.write_cursor < UINT_MOD ∧ s.wrap_cursor < UINT_MOD

/-- Unsplit regime: the live bytes are one contiguous physical run
`[rOff, rOff + gap)` that does not cross the physical end of storage. -/
def InvUnsplit (s : ijcringbuffer) : Prop := rOff s + gap s ≤ s.size

/-- Split regime: a tail run `[rOff, rOff + tailGap)` at the physical end of
the live region plus a front run `[0, frontLen)`, with the write cursor
inflated so that `gap` exceeds `size` by exactly the amount the collapse in
`consume` will cancel.  The inflation constant differs by `size` depending on
whether the split was created while the old contiguous run ended exactly at
the physical end of storage (`tailGap + rOff = size`). -/
def InvSplit (s : ijcringbuffer) : Prop :=
  tailGap s + rOff s ≤ s.size ∧
  gap s + rOff s =
    (if tailGap s + rOff s = s.size then 3 * s.size else 2 * s.size) + frontLen s ∧
  (1 ≤ tailGap s → 1 ≤ rOff s ∧ frontLen s ≤ rOff s)

/-- The reachable-state invariant (named `RBInv` since `Inv` is taken by Mathlib). -/
def RBInv (s : ijcringbuffer) : Prop := InvBase s ∧ (InvUnsplit s ∨ InvSplit s)


/-- Following the spec's words (§4.3, claim C4): the continuous consumable
size as the spec's three-case formula — unsplit: modular `write - read`;
split with the tail drained: `write & mask` if nonzero else `size`; split
otherwise: `(wrap - read) & mask`.  To be compared with the implementation's
`ijcringbuffer_consumeable_size_continuous`. -/
def spec_consumeable_size_continuous (s : ijcringbuffer) : Nat :=
  if ijcringbuffer__is_split s then
    if s.read_cursor = s.wrap_cursor then
      if s.write_cursor &&& s.mask ≠ 0 then s.write_cursor &&& s.mask else s.size
    else
      (usub s.wrap_cursor s.read_cursor) &&& s.mask
  else
    usub s.write_cursor s.read_cursor

/-- Following the spec's words (§4.3, claim C4): the total consumable size —
same as the continuous formula except that the split/tail-not-drained case
adds `write & mask` (the front run's length) to the tail remainder.  To be
compared with the implementation's `ijcringbuffer_consumeable_size`. -/
def spec_consumeable_size (s : ijcringbuffer) : Nat :=
  if ijcringbuffer__is_split s then
    if s.read_cursor = s.wrap_cursor then
      if s.write_cursor &&& s.mask ≠ 0 then s.write_cursor &&& s.mask else s.size
    else
      ((usub s.wrap_cursor s.read_cursor) &&& s.mask) + (s.write_cursor &&& s.mask)
  else
    usub s.write_cursor s.read_cursor

/-- A reachable capacity-8 buffer that is empty with physical write offset 1:
`init` on 8 bytes, `produce` of 1 byte, `consume 1`. -/
def emptyOffsetState : ijcringbuffer :=
  ijcringbuffer_consume
    (ijcringbuffer_produce (ijcringbuffer_init (List.replicate 8 0) (2 ^ 3))
      [1]).1 1

/-- The state after the auto-reset `produce` of a full-capacity 8-byte run on
`emptyOffsetState`: a split state whose front run fills the whole buffer. -/
def fullWrapState : ijcringbuffer :=
  (ijcringbuffer_produce emptyOffsetState (List.replicate 8 7)).1

/-- A reachable capacity-8 buffer that is full and unsplit with physical
write offset 0 and read offset 1: `init`, `produce` of 8 bytes, `consume 1`. -/
def fullBackState : ijcringbuffer :=
  ijcringbuffer_consume
    (ijcringbuffer_produce (ijcringbuffer_init (List.replicate 8 0) (2 ^ 3))
      [1, 2, 3, 4, 5, 6, 7, 8]).1 1

/-! ## Arithmetic toolbox for 32-bit cursor arithmetic -/

theorem usub_lt (a b : Nat) : usub a b < UINT_MOD :=
  Nat.mod_lt _ (by decide)

theorem usub_self (a : Nat) : usub a a = 0 := by
  unfold usub UINT_MOD; omega

theorem usub_eq_zero {a b : Nat} (ha : a < UINT_MOD) (hb : b < UINT_MOD) :
    usub a b = 0 ↔ a = b := by
  unfold usub UINT_MOD at *; omega

theorem usub_of_le {a b : Nat} (ha : a < UINT_MOD) (hb : b ≤ a) :
    usub a b = a - b := by
  unfold usub UINT_MOD at *; omega

theorem usub_add_right {a b d : Nat} (ha : a < UINT_MOD) (hb : b < UINT_MOD)
    (hd : d ≤ usub a b) : usub a ((b + d) % UINT_MOD) = usub a b - d := by
  unfold usub UINT_MOD at *; omega

theorem usub_add_left {a b d : Nat} (ha : a < UINT_MOD) (hb : b < UINT_MOD)
    (hd : usub a b + d < UINT_MOD) :
    usub ((a + d) % UINT_MOD) b = usub a b + d := by
  unfold usub UINT_MOD at *; omega

theorem usub_pair {a b : Nat} (ha : a < UINT_MOD) (hb : b < UINT_MOD)
    (hne : a ≠ b) : usub a b + usub b a = UINT_MOD := by
  unfold usub UINT_MOD at *; omega

/-! ## Facts derived from the base invariant -/

theorem invBase_size_pos {s : ijcringbuffer} (hb : InvBase s) : 0 < s.size := by
  obtain ⟨⟨k, _, hsz⟩, _⟩ := hb
  rw [hsz]; exact Nat.pos_pow_of_pos k (by norm_num)

theorem invBase_size_le {s : ijcringbuffer} (hb : InvBase s) :
    s.size ≤ 536870912 := by
  obtain ⟨⟨k, hk, hsz⟩, _⟩ := hb
  rw [hsz]
  calc 2 ^ k ≤ 2 ^ 29 := Nat.pow_le_pow_right (by norm_num) hk
  _ = 536870912 := by norm_num

theorem invBase_size_dvd {s : ijcringbuffer} (hb : InvBase s) :
    s.size ∣ UINT_MOD := by
  obtain ⟨⟨k, hk, hsz⟩, _⟩ := hb
  rw [hsz, show UINT_MOD = 2 ^ 32 from by decide]
  exact Nat.pow_dvd_pow 2 (le_trans hk (by norm_num))

theorem invBase_mod_mod {s : ijcringbuffer} (hb : InvBase s) (x : Nat) :
    (x % UINT_MOD) % s.size = x % s.size :=
  Nat.mod_mod_of_dvd x (invBase_size_dvd hb)

theorem invBase_and_mask {s : ijcringbuffer} (hb : InvBase s) (x : Nat) :
    x &&& s.mask = x % s.size := by
  obtain ⟨⟨k, hk, hsz⟩, hm, _⟩ := hb
  rw [hm, hsz]
  exact Nat.and_pow_two_sub_one_eq_mod x k

theorem invBase_rOff_lt {s : ijcringbuffer} (hb : InvBase s) :
    rOff s < s.size :=
  Nat.mod_lt _ (invBase_size_pos hb)

theorem frontLen_pos {s : ijcringbuffer} (h : 0 < s.size) : 1 ≤ frontLen s := by
  unfold frontLen
  split
  · exact h
  · omega

theorem frontLen_le {s : ijcringbuffer} (h : 0 < s.size) :
    frontLen s ≤ s.size := by
  unfold frontLen
  split
  · exact le_refl _
  · exact le_of_lt (Nat.mod_lt _ h)

theorem frontLen_eq_of_ne {s : ijcringbuffer}
    (h : s.write_cursor % s.size ≠ 0) : frontLen s = s.write_cursor % s.size := by
  unfold frontLen; rw [if_neg h]

theorem frontLen_eq_of_eq {s : ijcringbuffer}
    (h : s.write_cursor % s.size = 0) : frontLen s = s.size := by
  unfold frontLen; rw [if_pos h]

/-! ## Characterisation of the split flag and the consumable sizes -/

theorem split_gap_bounds {s : ijcringbuffer} (hb : InvBase s) (hs : InvSplit s) :
    s.size < gap s ∧ gap s ≤ 3 * s.size := by
  obtain ⟨h1, h2, h3⟩ := hs
  have hS : 0 < s.size := invBase_size_pos hb
  have hro : rOff s < s.size := invBase_rOff_lt hb
  have hf1 : 1 ≤ frontLen s := frontLen_pos hS
  have hf2 : frontLen s ≤ s.size := frontLen_le hS
  by_cases hc : tailGap s + rOff s = s.size
  · rw [if_pos hc] at h2
    have ht : 1 ≤ tailGap s := by omega
    have := h3 ht
    omega
  · rw [if_neg hc] at h2
    omega

theorem is_split_false_of_unsplit {s : ijcringbuffer} (hb : InvBase s)
    (hu : InvUnsplit s) : ijcringbuffer__is_split s = false := by
  have hgap : usub s.write_cursor s.read_cursor ≤ s.size := by
    have := hu; unfold InvUnsplit at this; unfold gap at this; omega
  simp only [ijcringbuffer__is_split, decide_eq_false_iff_not, not_lt]
  unfold ijcringbuffer__difference
  split <;> omega

theorem is_split_true_of_split {s : ijcringbuffer} (hb : InvBase s)
    (hs : InvSplit s) : ijcringbuffer__is_split s = true := by
  obtain ⟨hgap1, hgap2⟩ := split_gap_bounds hb hs
  have hk : s.size ≤ 536870912 := invBase_size_le hb
  obtain ⟨_, _, _, hr, hw, _⟩ := hb
  have hne : s.read_cursor ≠ s.write_cursor := by
    intro h
    have : gap s = 0 := by unfold gap; rw [h]; exact usub_self _
    omega
  have hp : usub s.read_cursor s.write_cursor + usub s.write_cursor s.read_cursor
      = UINT_MOD := usub_pair hr hw hne
  have hU : UINT_MOD = 4294967296 := rfl
  have hg : gap s = usub s.write_cursor s.read_cursor := rfl
  simp only [ijcringbuffer__is_split, decide_eq_true_eq]
  unfold ijcringbuffer__difference
  split <;> omega

theorem rb_cases {s : ijcringbuffer} (h : RBInv s) :
    (ijcringbuffer__is_split s = false ∧ InvUnsplit s) ∨
    (ijcringbuffer__is_split s = true ∧ InvSplit s) := by
  obtain ⟨hb, hu | hs⟩ := h
  · exact Or.inl ⟨is_split_false_of_unsplit hb hu, hu⟩
  · exact Or.inr ⟨is_split_true_of_split hb hs, hs⟩

theorem tailGap_zero_iff {s : ijcringbuffer} (hb : InvBase s) :
    tailGap s = 0 ↔ s.read_cursor = s.wrap_cursor := by
  obtain ⟨_, _, _, hr, _, hwr⟩ := hb
  unfold tailGap
  rw [usub_eq_zero hwr hr]
  exact eq_comm

theorem cs_unsplit {s : ijcringbuffer} (hb : InvBase s) (hu : InvUnsplit s)
    (c : Bool) : ijcringbuffer__consumeable_size s c = gap s := by
  unfold ijcringbuffer__consumeable_size
  rw [is_split_false_of_unsplit hb hu]
  simp only [Bool.false_eq_true, if_false]
  rfl

theorem cs_drained {s : ijcringbuffer} (hb : InvBase s) (hs : InvSplit s)
    (ht : tailGap s = 0) (c : Bool) :
    ijcringbuffer__consumeable_size s c = frontLen s := by
  have hrw : s.read_cursor = s.wrap_cursor := (tailGap_zero_iff hb).mp ht
  unfold ijcringbuffer__consumeable_size
  rw [is_split_true_of_split hb hs]
  simp only [if_true, if_pos hrw]
  rw [invBase_and_mask hb]
  unfold frontLen
  by_cases h0 : s.write_cursor % s.size = 0
  · simp [h0]
  · simp [h0]

theorem cs_tail {s : ijcringbuffer} (hb : InvBase s) (hs : InvSplit s)
    (ht : 1 ≤ tailGap s) (c : Bool) :
    ijcringbuffer__consumeable_size s c
      = tailGap s + (if c then 0 else frontLen s) := by
  have hS : 0 < s.size := invBase_size_pos hb
  have hro : rOff s < s.size := invBase_rOff_lt hb
  obtain ⟨hro1, hfro⟩ := hs.2.2 ht
  have htS : tailGap s < s.size := by
    have := hs.1; omega
  have hfS : frontLen s < s.size := lt_of_le_of_lt hfro hro
  have hrw : ¬s.read_cursor = s.wrap_cursor := by
    intro h
    exact absurd ((tailGap_zero_iff hb).mpr h) (by omega)
  unfold ijcringbuffer__consumeable_size
  rw [is_split_true_of_split hb hs]
  simp only [if_true, if_neg hrw]
  rw [invBase_and_mask hb, invBase_and_mask hb]
  have h1 : usub s.wrap_cursor s.read_cursor % s.size = tailGap s := by
    have : usub s.wrap_cursor s.read_cursor = tailGap s := rfl
    rw [this]; exact Nat.mod_eq_of_lt htS
  have h2 : s.write_cursor % s.size = frontLen s := by
    rcases Nat.eq_zero_or_pos (s.write_cursor % s.size) with h0 | h0
    · rw [frontLen_eq_of_eq h0] at hfS; omega
    · exact (frontLen_eq_of_ne (by omega)).symm
  rw [h1, h2]

theorem invBase_r_lt {s : ijcringbuffer} (hb : InvBase s) :
    s.read_cursor < UINT_MOD := hb.2.2.2.1

theorem invBase_w_lt {s : ijcringbuffer} (hb : InvBase s) :
    s.write_cursor < UINT_MOD := hb.2.2.2.2.1

theorem invBase_wrap_lt {s : ijcringbuffer} (hb : InvBase s) :
    s.wrap_cursor < UINT_MOD := hb.2.2.2.2.2

theorem invBase_size_lt {s : ijcringbuffer} (hb : InvBase s) :
    s.size < UINT_MOD :=
  lt_of_le_of_lt (invBase_size_le hb) (by decide)

theorem diff_le_usub (a b : Nat) : ijcringbuffer__difference a b ≤ usub b a := by
  unfold ijcringbuffer__difference
  split <;> omega

/-! ## The two branches of `ijcringbuffer_consume` -/

theorem size_update_read {s : ijcringbuffer} {x : Nat} :
    ({ s with read_cursor := x } : ijcringbuffer).size = s.size := rfl

theorem gap_update_read {s : ijcringbuffer} {x : Nat} :
    gap { s with read_cursor := x } = usub s.write_cursor x := rfl

theorem tailGap_update_read {s : ijcringbuffer} {x : Nat} :
    tailGap { s with read_cursor := x } = usub s.wrap_cursor x := rfl

theorem rOff_update_read {s : ijcringbuffer} {x : Nat} :
    rOff { s with read_cursor := x } = x % s.size := rfl

theorem frontLen_update_read {s : ijcringbuffer} {x : Nat} :
    frontLen { s with read_cursor := x } = frontLen s := rfl

theorem consume_eq_ordinary {s : ijcringbuffer} {n : Nat}
    (h : ¬(s.read_cursor = s.wrap_cursor ∧ ijcringbuffer__is_split s = true)) :
    ijcringbuffer_consume s n
      = { s with read_cursor := (s.read_cursor + n) % UINT_MOD } := by
  unfold ijcringbuffer_consume
  rw [if_neg h]

theorem consume_eq_collapse {s : ijcringbuffer} {n : Nat}
    (h1 : s.read_cursor = s.wrap_cursor) (h2 : ijcringbuffer__is_split s = true) :
    ijcringbuffer_consume s n
      = { s with read_cursor :=
            (s.read_cursor + s.size + usub s.size (s.read_cursor &&& s.mask) + n)
              % UINT_MOD } := by
  unfold ijcringbuffer_consume
  rw [if_pos ⟨h1, h2⟩]

theorem invBase_update_read {s : ijcringbuffer} {x : Nat} (hb : InvBase s) :
    InvBase { s with read_cursor := x % UINT_MOD } := by
  obtain ⟨hpow, hm, hd, _, hw, hwr⟩ := hb
  exact ⟨hpow, hm, hd, Nat.mod_lt _ (by decide), hw, hwr⟩

/-- Ordinary consume in the unsplit regime: the read cursor advances by `n`
and the state stays unsplit with the gap shrunk by `n`. -/
theorem consume_spec_unsplit {s : ijcringbuffer} {n : Nat} (hb : InvBase s)
    (hu : InvUnsplit s) (hn : n ≤ gap s) :
    (ijcringbuffer_consume s n).read_cursor = (s.read_cursor + n) % UINT_MOD ∧
    InvBase (ijcringbuffer_consume s n) ∧
    InvUnsplit (ijcringbuffer_consume s n) ∧
    gap (ijcringbuffer_consume s n) = gap s - n := by
  have hsp := is_split_false_of_unsplit hb hu
  have hcond : ¬(s.read_cursor = s.wrap_cursor ∧ ijcringbuffer__is_split s = true) := by
    rintro ⟨-, h⟩
    rw [hsp] at h
    exact Bool.false_ne_true h
  rw [consume_eq_ordinary hcond]
  have hgap : usub s.write_cursor ((s.read_cursor + n) % UINT_MOD) = gap s - n :=
    usub_add_right (invBase_w_lt hb) (invBase_r_lt hb) hn
  refine ⟨rfl, invBase_update_read hb, ?_, by rw [gap_update_read, hgap]⟩
  unfold InvUnsplit
  rw [size_update_read, gap_update_read, hgap, rOff_update_read,
    invBase_mod_mod hb, ← Nat.mod_add_mod]
  have hu2 : rOff s + gap s ≤ s.size := hu
  have hle : rOff s + n ≤ s.size := by omega
  have hrd : s.read_cursor % s.size = rOff s := rfl
  rw [hrd]
  rcases Nat.lt_or_ge (rOff s + n) s.size with h | h
  · rw [Nat.mod_eq_of_lt h]
    omega
  · have heq : rOff s + n = s.size := le_antisymm hle h
    rw [heq, Nat.mod_self]
    omega

/-- Ordinary consume in the split regime (tail not yet drained): the read
cursor advances by `n` within the tail run and the split invariant is kept
with `tailGap` and `gap` shrunk by `n`. -/
theorem consume_spec_tail {s : ijcringbuffer} {n : Nat} (hb : InvBase s)
    (hs : InvSplit s) (ht : 1 ≤ tailGap s) (hn : n ≤ tailGap s) :
    (ijcringbuffer_consume s n).read_cursor = (s.read_cursor + n) % UINT_MOD ∧
    InvBase (ijcringbuffer_consume s n) ∧
    InvSplit (ijcringbuffer_consume s n) ∧
    tailGap (ijcringbuffer_consume s n) = tailGap s - n ∧
    gap (ijcringbuffer_consume s n) = gap s - n ∧
    frontLen (ijcringbuffer_consume s n) = frontLen s := by
  have hS : 0 < s.size := invBase_size_pos hb
  have hro : rOff s < s.size := invBase_rOff_lt hb
  have hcond : ¬(s.read_cursor = s.wrap_cursor ∧ ijcringbuffer__is_split s = true) := by
    rintro ⟨h, -⟩
    have := (tailGap_zero_iff hb).mpr h
    omega
  rw [consume_eq_ordinary hcond]
  have hgb := split_gap_bounds hb hs
  obtain ⟨hts, heq, hcl⟩ := hs
  obtain ⟨hro1, hfro⟩ := hcl ht
  have hngap : n ≤ gap s := by omega
  have hgap : usub s.write_cursor ((s.read_cursor + n) % UINT_MOD) = gap s - n :=
    usub_add_right (invBase_w_lt hb) (invBase_r_lt hb) hngap
  have htg : usub s.wrap_cursor ((s.read_cursor + n) % UINT_MOD) = tailGap s - n :=
    usub_add_right (invBase_wrap_lt hb) (invBase_r_lt hb) hn
  have hroff : ((s.read_cursor + n) % UINT_MOD) % s.size = (rOff s + n) % s.size := by
    rw [invBase_mod_mod hb, ← Nat.mod_add_mod]
    rfl
  refine ⟨rfl, invBase_update_read hb, ?_,
    by rw [tailGap_update_read, htg], by rw [gap_update_read, hgap],
    frontLen_update_read⟩
  unfold InvSplit
  rw [size_update_read, gap_update_read, hgap, tailGap_update_read, htg,
    rOff_update_read, hroff, frontLen_update_read]
  have hfle : frontLen s ≤ s.size := frontLen_le hS
  have hf1 : 1 ≤ frontLen s := frontLen_pos hS
  rcases Nat.lt_or_ge (rOff s + n) s.size with hlt | hge
  · -- the read offset does not hit the physical end of storage
    have hmod : (rOff s + n) % s.size = rOff s + n := Nat.mod_eq_of_lt hlt
    rw [hmod]
    refine ⟨by omega, ?_, by omega⟩
    by_cases hc : tailGap s + rOff s = s.size
    · rw [if_pos hc] at heq
      rw [if_pos (by omega)]
      omega
    · rw [if_neg hc] at heq
      rw [if_neg (by omega)]
      omega
  · -- the tail is consumed exactly to the physical end: full drain
    have hn_eq : rOff s + n = s.size := by omega
    have hnt : n = tailGap s := by omega
    have hmod : (rOff s + n) % s.size = 0 := by rw [hn_eq, Nat.mod_self]
    have hc : tailGap s + rOff s = s.size := by omega
    rw [if_pos hc] at heq
    rw [hmod]
    refine ⟨by omega, ?_, by omega⟩
    rw [if_neg (by omega)]
    omega

/-- Collapse consume: with the tail fully drained (`read_cursor ==
wrap_cursor` in the split state), the read cursor is inflated by
`size + (size - rOff) + n`, which lands its physical projection at `n % size`
and returns the cursor pair to the unsplit regime with `gap = frontLen - n`. -/
theorem consume_spec_collapse {s : ijcringbuffer} {n : Nat} (hb : InvBase s)
    (hs : InvSplit s) (ht : tailGap s = 0) (hn : n ≤ frontLen s) :
    (ijcringbuffer_consume s n).read_cursor
      = (s.read_cursor + s.size + usub s.size (s.read_cursor &&& s.mask) + n)
          % UINT_MOD ∧
    InvBase (ijcringbuffer_consume s n) ∧
    InvUnsplit (ijcringbuffer_consume s n) ∧
    gap (ijcringbuffer_consume s n) = frontLen s - n ∧
    rOff (ijcringbuffer_consume s n) = n % s.size := by
  have hS : 0 < s.size := invBase_size_pos hb
  have hro : rOff s < s.size := invBase_rOff_lt hb
  have hrw : s.read_cursor = s.wrap_cursor := (tailGap_zero_iff hb).mp ht
  have hsp := is_split_true_of_split hb hs
  rw [consume_eq_collapse hrw hsp]
  obtain ⟨hts, heq, -⟩ := hs
  rw [if_neg (by omega)] at heq
  have hf1 : 1 ≤ frontLen s := frontLen_pos hS
  have hfle : frontLen s ≤ s.size := frontLen_le hS
  have husub : usub s.size (s.read_cursor &&& s.mask) = s.size - rOff s := by
    rw [invBase_and_mask hb]
    exact usub_of_le (invBase_size_lt hb) (le_of_lt (invBase_rOff_lt hb))
  rw [husub]
  have hassoc : s.read_cursor + s.size + (s.size - rOff s) + n
      = s.read_cursor + (s.size + (s.size - rOff s) + n) := by omega
  rw [hassoc]
  have hdel : s.size + (s.size - rOff s) + n ≤ gap s := by omega
  have hgap : usub s.write_cursor
      ((s.read_cursor + (s.size + (s.size - rOff s) + n)) % UINT_MOD)
      = gap s - (s.size + (s.size - rOff s) + n) :=
    usub_add_right (invBase_w_lt hb) (invBase_r_lt hb) hdel
  have hgap2 : gap s - (s.size + (s.size - rOff s) + n) = frontLen s - n := by
    omega
  have hroff : ((s.read_cursor + (s.size + (s.size - rOff s) + n)) % UINT_MOD)
      % s.size = n % s.size := by
    rw [invBase_mod_mod hb, ← Nat.mod_add_mod]
    have hrd : s.read_cursor % s.size = rOff s := rfl
    rw [hrd]
    have harr : rOff s + (s.size + (s.size - rOff s) + n) = n + s.size * 2 := by
      omega
    rw [harr, Nat.add_mul_mod_self_left]
  refine ⟨rfl, invBase_update_read hb, ?_,
    by rw [gap_update_read, hgap, hgap2], by rw [rOff_update_read, hroff]⟩
  unfold InvUnsplit
  rw [size_update_read, gap_update_read, hgap, hgap2, rOff_update_read, hroff]
  rcases Nat.lt_or_ge n s.size with hlt | hge
  · rw [Nat.mod_eq_of_lt hlt]
    omega
  · have hne : n = s.size := by omega
    rw [hne, Nat.mod_self]
    omega

/-- `consume` preserves the invariant and decreases the total consumable
size by exactly `n`, in both of its branches. -/
theorem consume_rbinv_cs {s : ijcringbuffer} {n : Nat} (hi : RBInv s)
    (hn : n ≤ ijcringbuffer_consumeable_size_continuous s) :
    RBInv (ijcringbuffer_consume s n) ∧
    ijcringbuffer_consumeable_size (ijcringbuffer_consume s n)
      = ijcringbuffer_consumeable_size s - n := by
  obtain ⟨hb, hcase⟩ := hi
  unfold ijcringbuffer_consumeable_size_continuous at hn
  unfold ijcringbuffer_consumeable_size
  rcases rb_cases ⟨hb, hcase⟩ with ⟨-, hu⟩ | ⟨-, hs⟩
  · rw [cs_unsplit hb hu] at hn
    obtain ⟨-, hb2, hu2, hg2⟩ := consume_spec_unsplit hb hu hn
    rw [cs_unsplit hb hu false, cs_unsplit hb2 hu2 false, hg2]
    exact ⟨⟨hb2, Or.inl hu2⟩, rfl⟩
  · rcases Nat.eq_zero_or_pos (tailGap s) with ht | ht
    · -- tail drained: collapse branch
      rw [cs_drained hb hs ht] at hn
      obtain ⟨-, hb2, hu2, hg2, -⟩ := consume_spec_collapse hb hs ht hn
      rw [cs_drained hb hs ht false, cs_unsplit hb2 hu2 false, hg2]
      exact ⟨⟨hb2, Or.inl hu2⟩, rfl⟩
    · -- tail not drained: ordinary consume within the tail
      rw [cs_tail hb hs ht] at hn
      simp only [if_true, Nat.add_zero] at hn
      obtain ⟨-, hb2, hs2, ht2, -, hf2⟩ := consume_spec_tail hb hs ht hn
      refine ⟨⟨hb2, Or.inr hs2⟩, ?_⟩
      rw [cs_tail hb hs ht false]
      rcases Nat.eq_zero_or_pos (tailGap (ijcringbuffer_consume s n)) with hz | hz
      · have hnt : n = tailGap s := by omega
        rw [cs_drained hb2 hs2 hz false, hf2]
        have hfro := (hs.2.2 ht).2
        have hro : rOff s < s.size := invBase_rOff_lt hb
        simp only [Bool.false_eq_true, if_false]
        omega
      · rw [cs_tail hb2 hs2 hz false, ht2, hf2]
        simp only [Bool.false_eq_true, if_false]
        have hgb := split_gap_bounds hb hs
        omega

/-! ## List-level facts about the modelled `memcpy` -/

theorem writeBytes_length {d : List Nat} {off : Nat} {ind : List Nat}
    (h : off + ind.length ≤ d.length) :
    (writeBytes d off ind).length = d.length := by
  unfold writeBytes
  simp only [List.length_append, List.length_take, List.length_drop]
  omega

theorem readBytes_writeBytes {d : List Nat} {off : Nat} {ind : List Nat}
    (h : off + ind.length ≤ d.length) :
    readBytes (writeBytes d off ind) off ind.length = ind := by
  unfold readBytes writeBytes
  have h1 : (d.take off).length = off := by
    rw [List.length_take]
    omega
  rw [List.append_assoc, List.drop_left' h1, List.take_left' rfl]

/-! ## Base invariant for the produce-updated records -/

theorem invBase_update_write {s : ijcringbuffer} {D : List Nat} {X : Nat}
    (hb : InvBase s) (hD : D.length = s.size) :
    InvBase { s with data := D, write_cursor := X % UINT_MOD } := by
  obtain ⟨hpow, hm, hd, hr, _, hwr⟩ := hb
  exact ⟨hpow, hm, hD, hr, Nat.mod_lt _ (by decide), hwr⟩

theorem invBase_update_wtf {s : ijcringbuffer} {D : List Nat} {X : Nat}
    (hb : InvBase s) (hD : D.length = s.size) :
    InvBase { s with wrap_cursor := s.write_cursor, data := D,
                     write_cursor := X % UINT_MOD } := by
  obtain ⟨hpow, hm, hd, hr, hw, _⟩ := hb
  exact ⟨hpow, hm, hD, hr, Nat.mod_lt _ (by decide), hw⟩

/-! ## Branch equations of `ijcringbuffer_produce` -/

theorem produce_eq_split {s : ijcringbuffer} {ind : List Nat}
    (hsp : ijcringbuffer__is_split s = true) :
    ijcringbuffer_produce s ind =
      if (if s.wrap_cursor = s.read_cursor then
            if s.write_cursor &&& s.mask ≠ 0 then
              usub s.size (s.write_cursor &&& s.mask)
            else 0
          else
            (usub s.read_cursor s.write_cursor) &&& s.mask) ≥ ind.length then
        ({ s with data := writeBytes s.data (s.write_cursor &&& s.mask) ind,
                  write_cursor := (s.write_cursor + ind.length) % UINT_MOD },
         true)
      else (s, false) := by
  unfold ijcringbuffer_produce
  rw [hsp]
  rw [if_pos rfl]

theorem produce_eq_auto {s : ijcringbuffer} {ind : List Nat}
    (hsp : ijcringbuffer__is_split s = false)
    (hc : s.write_cursor &&& s.mask ≠ 0 ∧ s.write_cursor = s.read_cursor
          ∧ s.size ≥ ind.length) :
    ijcringbuffer_produce s ind = ijcringbuffer__write_to_front s ind := by
  unfold ijcringbuffer_produce
  rw [hsp]
  simp only [Bool.false_eq_true, if_false]
  rw [if_pos hc]

theorem produce_eq_goto_front {s : ijcringbuffer} {ind : List Nat}
    (hsp : ijcringbuffer__is_split s = false)
    (hna : ¬(s.write_cursor &&& s.mask ≠ 0 ∧ s.write_cursor = s.read_cursor
             ∧ s.size ≥ ind.length))
    (hc : s.write_cursor &&& s.mask = 0 ∧ ¬s.write_cursor = s.read_cursor) :
    ijcringbuffer_produce s ind = ijcringbuffer__check_front s ind := by
  unfold ijcringbuffer_produce
  rw [hsp]
  simp only [Bool.false_eq_true, if_false]
  rw [if_neg hna, if_pos hc]

theorem produce_eq_back {s : ijcringbuffer} {ind : List Nat}
    (hsp : ijcringbuffer__is_split s = false)
    (hna : ¬(s.write_cursor &&& s.mask ≠ 0 ∧ s.write_cursor = s.read_cursor
             ∧ s.size ≥ ind.length))
    (hnf : ¬(s.write_cursor &&& s.mask = 0 ∧ ¬s.write_cursor = s.read_cursor))
    (hroom : usub s.size (s.write_cursor &&& s.mask) ≥ ind.length) :
    ijcringbuffer_produce s ind =
      ({ s with data := writeBytes s.data (s.write_cursor &&& s.mask) ind,
                write_cursor := (s.write_cursor + ind.length) % UINT_MOD },
       true) := by
  unfold ijcringbuffer_produce
  rw [hsp]
  simp only [Bool.false_eq_true, if_false]
  rw [if_neg hna, if_neg hnf, if_pos hroom]

theorem produce_eq_late_front {s : ijcringbuffer} {ind : List Nat}
    (hsp : ijcringbuffer__is_split s = false)
    (hna : ¬(s.write_cursor &&& s.mask ≠ 0 ∧ s.write_cursor = s.read_cursor
             ∧ s.size ≥ ind.length))
    (hnf : ¬(s.write_cursor &&& s.mask = 0 ∧ ¬s.write_cursor = s.read_cursor))
    (hnoroom : ¬usub s.size (s.write_cursor &&& s.mask) ≥ ind.length) :
    ijcringbuffer_produce s ind = ijcringbuffer__check_front s ind := by
  unfold ijcringbuffer_produce
  rw [hsp]
  simp only [Bool.false_eq_true, if_false]
  rw [if_neg hna, if_neg hnf, if_neg hnoroom]

theorem check_front_eq_pos {s : ijcringbuffer} {ind : List Nat}
    (h : s.read_cursor &&& s.mask ≥ ind.length) :
    ijcringbuffer__check_front s ind = ijcringbuffer__write_to_front s ind := by
  unfold ijcringbuffer__check_front
  rw [if_pos h]

theorem check_front_eq_neg {s : ijcringbuffer} {ind : List Nat}
    (h : ¬s.read_cursor &&& s.mask ≥ ind.length) :
    ijcringbuffer__check_front s ind = (s, false) := by
  unfold ijcringbuffer__check_front
  rw [if_neg h]

/-! ## `write_to_front` : the three entry contexts from the unsplit regime -/

/-- Auto-reset entry: buffer empty with a nonzero physical write offset.
`write_to_front` creates a split state whose tail is already drained
(`read_cursor = wrap_cursor`) and whose front run is the produced run. -/
theorem wtf_rbinv_empty {s : ijcringbuffer} {ind : List Nat} (hb : InvBase s)
    (hgap : gap s = 0) (hmw : s.write_cursor % s.size ≠ 0)
    (hn1 : 1 ≤ ind.length) (hnS : ind.length ≤ s.size) :
    InvBase (ijcringbuffer__write_to_front s ind).1 ∧
    InvSplit (ijcringbuffer__write_to_front s ind).1 ∧
    (ijcringbuffer__write_to_front s ind).1.read_cursor
      = (ijcringbuffer__write_to_front s ind).1.wrap_cursor ∧
    frontLen (ijcringbuffer__write_to_front s ind).1 = ind.length := by
  have hS : 0 < s.size := invBase_size_pos hb
  have hro : rOff s < s.size := invBase_rOff_lt hb
  have hSle : s.size ≤ 536870912 := invBase_size_le hb
  have hweq : s.write_cursor = s.read_cursor :=
    (usub_eq_zero (invBase_w_lt hb) (invBase_r_lt hb)).mp hgap
  have hand : s.write_cursor &&& s.mask = s.write_cursor % s.size :=
    invBase_and_mask hb _
  have hmwr : s.write_cursor % s.size = rOff s := by
    rw [hweq]; rfl
  have husub : usub s.size (s.write_cursor &&& s.mask) = s.size - rOff s := by
    rw [hand, hmwr]
    exact usub_of_le (invBase_size_lt hb) (le_of_lt hro)
  have hlen0 : 0 + ind.length ≤ s.data.length := by
    rw [hb.2.2.1]; omega
  have hX : s.write_cursor + s.size + usub s.size (s.write_cursor &&& s.mask)
      + ind.length
      = s.read_cursor + (s.size + (s.size - rOff s) + ind.length) := by
    rw [husub, hweq]; omega
  have hgapP : usub ((s.read_cursor + (s.size + (s.size - rOff s) + ind.length))
      % UINT_MOD) s.read_cursor
      = s.size + (s.size - rOff s) + ind.length := by
    have h0 := usub_self s.read_cursor
    have := usub_add_left (a := s.read_cursor) (b := s.read_cursor)
      (d := s.size + (s.size - rOff s) + ind.length)
      (invBase_r_lt hb) (invBase_r_lt hb) (by rw [h0]; unfold UINT_MOD; omega)
    rw [this, h0, Nat.zero_add]
  have hWmod : ((s.read_cursor + (s.size + (s.size - rOff s) + ind.length))
      % UINT_MOD) % s.size = ind.length % s.size := by
    rw [invBase_mod_mod hb, ← Nat.mod_add_mod]
    have hrd : s.read_cursor % s.size = rOff s := rfl
    rw [hrd]
    have harr : rOff s + (s.size + (s.size - rOff s) + ind.length)
        = ind.length + s.size * 2 := by omega
    rw [harr, Nat.add_mul_mod_self_left]
  unfold ijcringbuffer__write_to_front
  dsimp only
  rw [hX]
  refine ⟨invBase_update_wtf hb (by rw [writeBytes_length hlen0, hb.2.2.1]),
    ?_, hweq.symm, ?_⟩
  · unfold InvSplit tailGap gap rOff frontLen
    dsimp only
    have hrd : s.read_cursor % s.size = rOff s := rfl
    rw [hrd]
    have htail : usub s.write_cursor s.read_cursor = 0 := hgap
    have hfront : (if ind.length % s.size = 0 then s.size
        else ind.length % s.size) = ind.length := by
      rcases Nat.lt_or_ge ind.length s.size with hlt | hge
      · rw [Nat.mod_eq_of_lt hlt, if_neg (by omega)]
      · have : ind.length = s.size := by omega
        rw [this, Nat.mod_self, if_pos rfl]
    rw [htail, hgapP, hWmod, hfront]
    refine ⟨by omega, ?_, ?_⟩
    · rw [if_neg (by omega)]
      omega
    · intro h
      omega
  · unfold frontLen
    dsimp only
    rw [hWmod]
    rcases Nat.lt_or_ge ind.length s.size with hlt | hge
    · rw [Nat.mod_eq_of_lt hlt, if_neg (by omega)]
    · have : ind.length = s.size := by omega
      rw [this, Nat.mod_self, if_pos rfl]

theorem wmod_eq {s : ijcringbuffer} (hb : InvBase s) :
    s.write_cursor % s.size = (rOff s + gap s) % s.size := by
  have hr := invBase_r_lt hb
  have hw := invBase_w_lt hb
  have hw_eq : (s.read_cursor + gap s) % UINT_MOD = s.write_cursor := by
    unfold gap usub UINT_MOD at *
    omega
  rw [← hw_eq, invBase_mod_mod hb, ← Nat.mod_add_mod]
  rfl

/-- Front entry with the contiguous run ending exactly at the physical end of
storage (`write_cursor % size = 0`, buffer not empty): `write_to_front`
creates the split state with `tailGap + rOff = size`. -/
theorem wtf_rbinv_boundary {s : ijcringbuffer} {ind : List Nat} (hb : InvBase s)
    (hu : InvUnsplit s) (hmw : s.write_cursor % s.size = 0) (hgap1 : 1 ≤ gap s)
    (hn1 : 1 ≤ ind.length) (hfr : ind.length ≤ rOff s) :
    InvBase (ijcringbuffer__write_to_front s ind).1 ∧
    InvSplit (ijcringbuffer__write_to_front s ind).1 := by
  have hS : 0 < s.size := invBase_size_pos hb
  have hro : rOff s < s.size := invBase_rOff_lt hb
  have hSle : s.size ≤ 536870912 := invBase_size_le hb
  have hgapS : gap s ≤ s.size := by
    have := hu; unfold InvUnsplit at this; omega
  have hfull : rOff s + gap s = s.size := by
    have h1 := wmod_eq hb
    have hdvd : s.size ∣ rOff s + gap s :=
      Nat.dvd_of_mod_eq_zero (by rw [← h1]; exact hmw)
    have hle : s.size ≤ rOff s + gap s := Nat.le_of_dvd (by omega) hdvd
    have := hu
    unfold InvUnsplit at this
    omega
  have hand : s.write_cursor &&& s.mask = s.write_cursor % s.size :=
    invBase_and_mask hb _
  have husub : usub s.size (s.write_cursor &&& s.mask) = s.size := by
    rw [hand, hmw]
    have := usub_of_le (a := s.size) (b := 0) (invBase_size_lt hb) (Nat.zero_le _)
    omega
  have hlen0 : 0 + ind.length ≤ s.data.length := by
    rw [hb.2.2.1]; omega
  have hX : s.write_cursor + s.size + usub s.size (s.write_cursor &&& s.mask)
      + ind.length
      = s.write_cursor + (s.size + s.size + ind.length) := by
    rw [husub]; omega
  have hgapP : usub ((s.write_cursor + (s.size + s.size + ind.length))
      % UINT_MOD) s.read_cursor
      = gap s + (s.size + s.size + ind.length) :=
    usub_add_left (invBase_w_lt hb) (invBase_r_lt hb)
      (by
        have hg2 : usub s.write_cursor s.read_cursor ≤ s.size := hgapS
        unfold UINT_MOD
        omega)
  have hWmod : ((s.write_cursor + (s.size + s.size + ind.length)) % UINT_MOD)
      % s.size = ind.length % s.size := by
    rw [invBase_mod_mod hb, ← Nat.mod_add_mod, hmw]
    have harr : 0 + (s.size + s.size + ind.length) = ind.length + s.size * 2 := by
      omega
    rw [harr, Nat.add_mul_mod_self_left]
  have hnmod : ind.length % s.size = ind.length := Nat.mod_eq_of_lt (by omega)
  unfold ijcringbuffer__write_to_front
  dsimp only
  rw [hX]
  refine ⟨invBase_update_wtf hb (by rw [writeBytes_length hlen0, hb.2.2.1]), ?_⟩
  unfold InvSplit tailGap gap rOff frontLen
  dsimp only
  have hrd : s.read_cursor % s.size = rOff s := rfl
  rw [hrd, hgapP, hWmod, hnmod]
  have htail : usub s.write_cursor s.read_cursor = gap s := rfl
  rw [htail]
  refine ⟨by omega, ?_, ?_⟩
  · rw [if_pos (by omega), if_neg (by omega)]
    omega
  · intro h
    rw [if_neg (by omega)]
    omega

/-- Front entry from a non-empty unsplit state whose back room is
insufficient (`write_cursor % size ≠ 0`): the split state with
`tailGap + rOff < size`. -/
theorem wtf_rbinv_mid {s : ijcringbuffer} {ind : List Nat} (hb : InvBase s)
    (hu : InvUnsplit s) (hmw : s.write_cursor % s.size ≠ 0) (hgap1 : 1 ≤ gap s)
    (hn1 : 1 ≤ ind.length) (hfr : ind.length ≤ rOff s) :
    InvBase (ijcringbuffer__write_to_front s ind).1 ∧
    InvSplit (ijcringbuffer__write_to_front s ind).1 := by
  have hS : 0 < s.size := invBase_size_pos hb
  have hro : rOff s < s.size := invBase_rOff_lt hb
  have hSle : s.size ≤ 536870912 := invBase_size_le hb
  have hgapS : gap s ≤ s.size := by
    have := hu; unfold InvUnsplit at this; omega
  have hmwv : s.write_cursor % s.size = rOff s + gap s := by
    have h1 := wmod_eq hb
    have hle := hu
    unfold InvUnsplit at hle
    rcases Nat.lt_or_ge (rOff s + gap s) s.size with hlt | hge
    · rw [h1, Nat.mod_eq_of_lt hlt]
    · exfalso
      have hfe : rOff s + gap s = s.size := by omega
      rw [h1, hfe, Nat.mod_self] at hmw
      exact hmw rfl
  have hmwlt : rOff s + gap s < s.size := by
    rw [← hmwv]
    exact Nat.mod_lt _ hS
  have hand : s.write_cursor &&& s.mask = s.write_cursor % s.size :=
    invBase_and_mask hb _
  have husub : usub s.size (s.write_cursor &&& s.mask)
      = s.size - (rOff s + gap s) := by
    rw [hand, hmwv]
    exact usub_of_le (invBase_size_lt hb) (by omega)
  have hlen0 : 0 + ind.length ≤ s.data.length := by
    rw [hb.2.2.1]; omega
  have hX : s.write_cursor + s.size + usub s.size (s.write_cursor &&& s.mask)
      + ind.length
      = s.write_cursor
          + (s.size + (s.size - (rOff s + gap s)) + ind.length) := by
    rw [husub]; omega
  have hgapP : usub ((s.write_cursor
        + (s.size + (s.size - (rOff s + gap s)) + ind.length))
      % UINT_MOD) s.read_cursor
      = gap s + (s.size + (s.size - (rOff s + gap s)) + ind.length) :=
    usub_add_left (invBase_w_lt hb) (invBase_r_lt hb)
      (by
        have hg2 : usub s.write_cursor s.read_cursor ≤ s.size := hgapS
        unfold UINT_MOD
        omega)
  have hWmod : ((s.write_cursor
        + (s.size + (s.size - (rOff s + gap s)) + ind.length)) % UINT_MOD)
      % s.size = ind.length % s.size := by
    rw [invBase_mod_mod hb, ← Nat.mod_add_mod, hmwv]
    have harr : rOff s + gap s
        + (s.size + (s.size - (rOff s + gap s)) + ind.length)
        = ind.length + s.size * 2 := by omega
    rw [harr, Nat.add_mul_mod_self_left]
  have hnmod : ind.length % s.size = ind.length := Nat.mod_eq_of_lt (by omega)
  unfold ijcringbuffer__write_to_front
  dsimp only
  rw [hX]
  refine ⟨invBase_update_wtf hb (by rw [writeBytes_length hlen0, hb.2.2.1]), ?_⟩
  unfold InvSplit tailGap gap rOff frontLen
  dsimp only
  have hrd : s.read_cursor % s.size = rOff s := rfl
  have htail : usub s.write_cursor s.read_cursor = gap s := rfl
  rw [hrd, htail, hgapP, hWmod, hnmod]
  refine ⟨by omega, ?_, ?_⟩
  · rw [if_neg (by omega), if_neg (by omega)]
    omega
  · intro h
    rw [if_neg (by omega)]
    omega

/-- In a non-empty unsplit state whose write offset is nonzero, the physical
write offset equals `rOff + gap` (the contiguous run does not touch the
physical end of storage). -/
theorem wmod_eq_of_ne {s : ijcringbuffer} (hb : InvBase s) (hu : InvUnsplit s)
    (hmw : s.write_cursor % s.size ≠ 0) (hgap1 : 1 ≤ gap s) :
    s.write_cursor % s.size = rOff s + gap s := by
  have hS : 0 < s.size := invBase_size_pos hb
  have h1 := wmod_eq hb
  have hle := hu
  unfold InvUnsplit at hle
  rcases Nat.lt_or_ge (rOff s + gap s) s.size with hlt | hge
  · rw [h1, Nat.mod_eq_of_lt hlt]
  · exfalso
    have hfe : rOff s + gap s = s.size := by omega
    rw [h1, hfe, Nat.mod_self] at hmw
    exact hmw rfl

/-- The back-write branch of `produce` from the unsplit regime: the run is
written at the physical write offset, within bounds, and the state stays
unsplit with the gap grown by the run length. -/
theorem back_rbinv {s : ijcringbuffer} {ind : List Nat} (hb : InvBase s)
    (hu : InvUnsplit s)
    (hna : ¬(s.write_cursor &&& s.mask ≠ 0 ∧ s.write_cursor = s.read_cursor
             ∧ s.size ≥ ind.length))
    (hnf : ¬(s.write_cursor &&& s.mask = 0 ∧ ¬s.write_cursor = s.read_cursor))
    (hroom : usub s.size (s.write_cursor &&& s.mask) ≥ ind.length) :
    (s.write_cursor &&& s.mask) + ind.length ≤ s.size ∧
    InvBase ({ s with
               data := (writeBytes s.data (s.write_cursor &&& s.mask) ind),
               write_cursor := (s.write_cursor + ind.length) % UINT_MOD }) ∧
    InvUnsplit ({ s with
               data := (writeBytes s.data (s.write_cursor &&& s.mask) ind),
               write_cursor := (s.write_cursor + ind.length) % UINT_MOD }) := by
  have hS : 0 < s.size := invBase_size_pos hb
  have hro : rOff s < s.size := invBase_rOff_lt hb
  have hSle : s.size ≤ 536870912 := invBase_size_le hb
  have hand : s.write_cursor &&& s.mask = s.write_cursor % s.size :=
    invBase_and_mask hb _
  have hmwS : s.write_cursor % s.size < s.size := Nat.mod_lt _ hS
  have husub : usub s.size (s.write_cursor &&& s.mask)
      = s.size - s.write_cursor % s.size := by
    rw [hand]
    exact usub_of_le (invBase_size_lt hb) (le_of_lt hmwS)
  have bound1 : (s.write_cursor &&& s.mask) + ind.length ≤ s.size := by
    rw [hand]
    omega
  have hg2 : usub s.write_cursor s.read_cursor ≤ s.size := by
    have := hu
    unfold InvUnsplit gap at this
    omega
  have hgapP : usub ((s.write_cursor + ind.length) % UINT_MOD) s.read_cursor
      = gap s + ind.length :=
    usub_add_left (invBase_w_lt hb) (invBase_r_lt hb)
      (by unfold UINT_MOD; omega)
  refine ⟨bound1, invBase_update_write hb
    (by rw [writeBytes_length (by rw [hb.2.2.1]; exact bound1), hb.2.2.1]), ?_⟩
  unfold InvUnsplit gap rOff
  dsimp only
  have hrd : s.read_cursor % s.size = rOff s := rfl
  rw [hrd, hgapP]
  rcases eq_or_ne s.write_cursor s.read_cursor with hcase | hcase
  · -- empty buffer
    have hg0 : gap s = 0 := by
      unfold gap
      rw [hcase]
      exact usub_self _
    have hmw0 : s.write_cursor % s.size = rOff s := by
      rw [hcase]; rfl
    rcases eq_or_ne (rOff s) 0 with hz | hz
    · rw [hand, hmw0] at bound1
      omega
    · exfalso
      exact hna ⟨by rw [hand, hmw0]; exact hz, hcase, by rw [hand] at bound1; omega⟩
  · -- non-empty: the physical write offset is rOff + gap
    have hgap1 : 1 ≤ gap s := by
      have : gap s ≠ 0 := by
        intro h0
        exact hcase ((usub_eq_zero (invBase_w_lt hb) (invBase_r_lt hb)).mp h0)
      omega
    have hmwne : s.write_cursor % s.size ≠ 0 := by
      intro h0
      exact hnf ⟨by rw [hand]; exact h0, hcase⟩
    have hmwv := wmod_eq_of_ne hb hu hmwne hgap1
    rw [hand, hmwv] at bound1
    omega

/-- Split produce with the tail drained (`wrap_cursor == read_cursor`) and a
nonzero write offset: the run is appended to the front run within the gap,
keeping the split invariant with the front run grown by the run length. -/
theorem split_drained_append_rbinv {s : ijcringbuffer} {ind : List Nat}
    (hb : InvBase s) (hs : InvSplit s) (ht : tailGap s = 0)
    (hmw : s.write_cursor &&& s.mask ≠ 0)
    (hav : usub s.size (s.write_cursor &&& s.mask) ≥ ind.length) :
    (s.write_cursor &&& s.mask) + ind.length ≤ s.size ∧
    InvBase ({ s with
               data := (writeBytes s.data (s.write_cursor &&& s.mask) ind),
               write_cursor := (s.write_cursor + ind.length) % UINT_MOD }) ∧
    InvSplit ({ s with
               data := (writeBytes s.data (s.write_cursor &&& s.mask) ind),
               write_cursor := (s.write_cursor + ind.length) % UINT_MOD }) := by
  have hS : 0 < s.size := invBase_size_pos hb
  have hro : rOff s < s.size := invBase_rOff_lt hb
  have hSle : s.size ≤ 536870912 := invBase_size_le hb
  have hand : s.write_cursor &&& s.mask = s.write_cursor % s.size :=
    invBase_and_mask hb _
  have hmwne : s.write_cursor % s.size ≠ 0 := by
    rw [hand] at hmw
    exact hmw
  have hmwS : s.write_cursor % s.size < s.size := Nat.mod_lt _ hS
  have hf : frontLen s = s.write_cursor % s.size := frontLen_eq_of_ne hmwne
  have husub : usub s.size (s.write_cursor &&& s.mask)
      = s.size - s.write_cursor % s.size := by
    rw [hand]
    exact usub_of_le (invBase_size_lt hb) (le_of_lt hmwS)
  have bound1 : (s.write_cursor &&& s.mask) + ind.length ≤ s.size := by
    rw [hand]
    omega
  have hgb := split_gap_bounds hb hs
  have hg3 : usub s.write_cursor s.read_cursor ≤ 3 * s.size := hgb.2
  have hgapP : usub ((s.write_cursor + ind.length) % UINT_MOD) s.read_cursor
      = gap s + ind.length :=
    usub_add_left (invBase_w_lt hb) (invBase_r_lt hb)
      (by
        have hb2 : ind.length ≤ s.size := by rw [hand] at bound1; omega
        unfold UINT_MOD
        omega)
  have hWmod : ((s.write_cursor + ind.length) % UINT_MOD) % s.size
      = (s.write_cursor % s.size + ind.length) % s.size := by
    rw [invBase_mod_mod hb, ← Nat.mod_add_mod]
  have hfl : (if (s.write_cursor % s.size + ind.length) % s.size = 0 then s.size
      else (s.write_cursor % s.size + ind.length) % s.size)
      = s.write_cursor % s.size + ind.length := by
    rcases Nat.lt_or_ge (s.write_cursor % s.size + ind.length) s.size with hlt | hge
    · rw [Nat.mod_eq_of_lt hlt, if_neg (by omega)]
    · have he : s.write_cursor % s.size + ind.length = s.size := by
        rw [hand] at bound1
        omega
      rw [he, Nat.mod_self, if_pos rfl]
  obtain ⟨hts, heq, hcl⟩ := hs
  refine ⟨bound1, invBase_update_write hb
    (by rw [writeBytes_length (by rw [hb.2.2.1]; exact bound1), hb.2.2.1]), ?_⟩
  unfold InvSplit tailGap gap rOff frontLen
  dsimp only
  have hrd : s.read_cursor % s.size = rOff s := rfl
  have htl : usub s.wrap_cursor s.read_cursor = tailGap s := rfl
  rw [hrd, htl, hgapP, hWmod, hfl, ht]
  rw [if_neg (by omega)] at heq
  rw [hf] at heq
  refine ⟨by omega, ?_, ?_⟩
  · rw [if_neg (by omega)]
    omega
  · intro h
    omega

/-- In a split state with the tail not drained, the `avail_write_size`
computed by `produce` equals the physical gap `rOff - frontLen` between the
end of the front run and the start of the tail run. -/
theorem split_tail_avail {s : ijcringbuffer} (hb : InvBase s) (hs : InvSplit s)
    (ht : 1 ≤ tailGap s) :
    (usub s.read_cursor s.write_cursor) &&& s.mask = rOff s - frontLen s := by
  have hS : 0 < s.size := invBase_size_pos hb
  have hro : rOff s < s.size := invBase_rOff_lt hb
  have hSle : s.size ≤ 536870912 := invBase_size_le hb
  have hgb := split_gap_bounds hb hs
  obtain ⟨hts, heq, hcl⟩ := hs
  obtain ⟨hro1, hfro⟩ := hcl ht
  have hne : s.read_cursor ≠ s.write_cursor := by
    intro h
    have hg0 : gap s = 0 := by
      unfold gap
      rw [h]
      exact usub_self _
    omega
  have hp := usub_pair (invBase_r_lt hb) (invBase_w_lt hb) hne
  have hrw : usub s.read_cursor s.write_cursor = 4294967296 - gap s := by
    have hU : UINT_MOD = 4294967296 := rfl
    unfold gap at *
    omega
  have hdvdW : s.size ∣ 4294967296 := by
    have := invBase_size_dvd hb
    rwa [show UINT_MOD = 4294967296 from rfl] at this
  rw [invBase_and_mask hb, hrw]
  by_cases hc : tailGap s + rOff s = s.size
  · rw [if_pos hc] at heq
    have hdvd3 : s.size ∣ 4294967296 - 3 * s.size :=
      Nat.dvd_sub' hdvdW ⟨3, by ring⟩
    have hdec : 4294967296 - gap s
        = (4294967296 - 3 * s.size) + (rOff s - frontLen s) := by
      omega
    rw [hdec, Nat.add_mod, Nat.mod_eq_zero_of_dvd hdvd3, Nat.zero_add,
      Nat.mod_mod_of_dvd _ dvd_rfl, Nat.mod_eq_of_lt (by omega)]
  · rw [if_neg hc] at heq
    have hdvd2 : s.size ∣ 4294967296 - 2 * s.size :=
      Nat.dvd_sub' hdvdW ⟨2, by ring⟩
    have hdec : 4294967296 - gap s
        = (4294967296 - 2 * s.size) + (rOff s - frontLen s) := by
      omega
    rw [hdec, Nat.add_mod, Nat.mod_eq_zero_of_dvd hdvd2, Nat.zero_add,
      Nat.mod_mod_of_dvd _ dvd_rfl, Nat.mod_eq_of_lt (by omega)]

/-- Split produce with the tail not drained: the run is appended to the front
run inside the physical gap below the tail start, keeping the split
invariant. -/
theorem split_tail_append_rbinv {s : ijcringbuffer} {ind : List Nat}
    (hb : InvBase s) (hs : InvSplit s) (ht : 1 ≤ tailGap s)
    (hav : rOff s - frontLen s ≥ ind.length) :
    (s.write_cursor &&& s.mask) + ind.length ≤ s.size ∧
    InvBase ({ s with
               data := (writeBytes s.data (s.write_cursor &&& s.mask) ind),
               write_cursor := (s.write_cursor + ind.length) % UINT_MOD }) ∧
    InvSplit ({ s with
               data := (writeBytes s.data (s.write_cursor &&& s.mask) ind),
               write_cursor := (s.write_cursor + ind.length) % UINT_MOD }) := by
  have hS : 0 < s.size := invBase_size_pos hb
  have hro : rOff s < s.size := invBase_rOff_lt hb
  have hSle : s.size ≤ 536870912 := invBase_size_le hb
  have hgb := split_gap_bounds hb hs
  obtain ⟨hts, heq, hcl⟩ := hs
  obtain ⟨hro1, hfro⟩ := hcl ht
  have hf1 : 1 ≤ frontLen s := frontLen_pos hS
  have hwne : s.write_cursor % s.size ≠ 0 := by
    intro h0
    have := frontLen_eq_of_eq h0
    omega
  have hf : frontLen s = s.write_cursor % s.size := frontLen_eq_of_ne hwne
  have hand : s.write_cursor &&& s.mask = s.write_cursor % s.size :=
    invBase_and_mask hb _
  have bound1 : (s.write_cursor &&& s.mask) + ind.length ≤ s.size := by
    rw [hand]
    omega
  have hgapP : usub ((s.write_cursor + ind.length) % UINT_MOD) s.read_cursor
      = gap s + ind.length :=
    usub_add_left (invBase_w_lt hb) (invBase_r_lt hb)
      (by
        have hg3 : usub s.write_cursor s.read_cursor ≤ 3 * s.size := hgb.2
        unfold UINT_MOD
        omega)
  have hWmod : ((s.write_cursor + ind.length) % UINT_MOD) % s.size
      = (s.write_cursor % s.size + ind.length) % s.size := by
    rw [invBase_mod_mod hb, ← Nat.mod_add_mod]
  have hsmall : s.write_cursor % s.size + ind.length < s.size := by
    omega
  have hfl : (if (s.write_cursor % s.size + ind.length) % s.size = 0 then s.size
      else (s.write_cursor % s.size + ind.length) % s.size)
      = s.write_cursor % s.size + ind.length := by
    rw [Nat.mod_eq_of_lt hsmall, if_neg (by omega)]
  refine ⟨bound1, invBase_update_write hb
    (by rw [writeBytes_length (by rw [hb.2.2.1]; exact bound1), hb.2.2.1]), ?_⟩
  unfold InvSplit tailGap gap rOff frontLen
  dsimp only
  have hrd : s.read_cursor % s.size = rOff s := rfl
  have htl : usub s.wrap_cursor s.read_cursor = tailGap s := rfl
  rw [hrd, htl, hgapP, hWmod, hfl]
  refine ⟨by omega, ?_, ?_⟩
  · by_cases hc : tailGap s + rOff s = s.size
    · rw [if_pos hc] at heq
      rw [if_pos hc]
      omega
    · rw [if_neg hc] at heq
      rw [if_neg hc]
      omega
  · intro h
    omega

/-- `produce` of a nonempty run preserves the reachable-state invariant, in
every one of its branches. -/
theorem produce_rbinv {s : ijcringbuffer} {ind : List Nat} (hi : RBInv s)
    (h1 : 1 ≤ ind.length) : RBInv (ijcringbuffer_produce s ind).1 := by
  have hb : InvBase s := hi.1
  rcases rb_cases hi with ⟨hsp, hu⟩ | ⟨hsp, hs⟩
  · -- unsplit regime
    by_cases hauto : s.write_cursor &&& s.mask ≠ 0
        ∧ s.write_cursor = s.read_cursor ∧ s.size ≥ ind.length
    · rw [produce_eq_auto hsp hauto]
      obtain ⟨ha1, ha2, ha3⟩ := hauto
      have hgap0 : gap s = 0 := by
        unfold gap
        rw [ha2]
        exact usub_self _
      have hmw : s.write_cursor % s.size ≠ 0 := by
        rwa [invBase_and_mask hb] at ha1
      obtain ⟨hB, hS, -, -⟩ := wtf_rbinv_empty hb hgap0 hmw h1 ha3
      exact ⟨hB, Or.inr hS⟩
    · by_cases hgoto : s.write_cursor &&& s.mask = 0
          ∧ ¬s.write_cursor = s.read_cursor
      · rw [produce_eq_goto_front hsp hauto hgoto]
        by_cases hfr : s.read_cursor &&& s.mask ≥ ind.length
        · rw [check_front_eq_pos hfr]
          obtain ⟨hg1, hg2⟩ := hgoto
          have hmw0 : s.write_cursor % s.size = 0 := by
            rwa [invBase_and_mask hb] at hg1
          have hgap1 : 1 ≤ gap s := by
            have : gap s ≠ 0 := by
              intro h0
              exact hg2 ((usub_eq_zero (invBase_w_lt hb) (invBase_r_lt hb)).mp h0)
            omega
          have hfr2 : ind.length ≤ rOff s := by
            rwa [invBase_and_mask hb] at hfr
          obtain ⟨hB, hS⟩ := wtf_rbinv_boundary hb hu hmw0 hgap1 h1 hfr2
          exact ⟨hB, Or.inr hS⟩
        · rw [check_front_eq_neg hfr]
          exact ⟨hb, Or.inl hu⟩
      · by_cases hroom : usub s.size (s.write_cursor &&& s.mask) ≥ ind.length
        · rw [produce_eq_back hsp hauto hgoto hroom]
          obtain ⟨-, hB, hU⟩ := back_rbinv hb hu hauto hgoto hroom
          exact ⟨hB, Or.inl hU⟩
        · rw [produce_eq_late_front hsp hauto hgoto hroom]
          by_cases hfr : s.read_cursor &&& s.mask ≥ ind.length
          · rw [check_front_eq_pos hfr]
            have hfr2 : ind.length ≤ rOff s := by
              rwa [invBase_and_mask hb] at hfr
            have hro : rOff s < s.size := invBase_rOff_lt hb
            -- the buffer cannot be empty here
            have hgap1 : 1 ≤ gap s := by
              rcases Nat.eq_zero_or_pos (gap s) with h0 | h0
              · exfalso
                have hweq : s.write_cursor = s.read_cursor :=
                  (usub_eq_zero (invBase_w_lt hb) (invBase_r_lt hb)).mp h0
                have hmwro : s.write_cursor % s.size = rOff s := by
                  rw [hweq]; rfl
                rcases eq_or_ne (s.write_cursor % s.size) 0 with hz | hz
                · -- write offset 0: the front check cannot admit a nonempty run
                  rw [hmwro] at hz
                  omega
                · -- auto-reset would have fired
                  refine hauto ⟨?_, hweq, ?_⟩
                  · rwa [invBase_and_mask hb]
                  · -- from ¬hroom we get size < run length, contradicting hfr2
                    have husub : usub s.size (s.write_cursor &&& s.mask)
                        = s.size - s.write_cursor % s.size := by
                      rw [invBase_and_mask hb]
                      exact usub_of_le (invBase_size_lt hb)
                        (le_of_lt (Nat.mod_lt _ (invBase_size_pos hb)))
                    rw [husub, hmwro] at hroom
                    omega
              · omega
            have hmwne : s.write_cursor % s.size ≠ 0 := by
              intro h0
              exact hgoto ⟨by rwa [invBase_and_mask hb], by
                intro hweq
                have : gap s = 0 := by
                  unfold gap
                  rw [hweq]
                  exact usub_self _
                omega⟩
            obtain ⟨hB, hS⟩ := wtf_rbinv_mid hb hu hmwne hgap1 h1 hfr2
            exact ⟨hB, Or.inr hS⟩
          · rw [check_front_eq_neg hfr]
            exact ⟨hb, Or.inl hu⟩
  · -- split regime
    rw [produce_eq_split hsp]
    by_cases hwr : s.wrap_cursor = s.read_cursor
    · have ht : tailGap s = 0 := (tailGap_zero_iff hb).mpr hwr.symm
      by_cases hmw : s.write_cursor &&& s.mask ≠ 0
      · rw [if_pos hwr, if_pos hmw]
        by_cases hav : usub s.size (s.write_cursor &&& s.mask) ≥ ind.length
        · rw [if_pos hav]
          obtain ⟨-, hB, hS⟩ := split_drained_append_rbinv hb hs ht hmw hav
          exact ⟨hB, Or.inr hS⟩
        · rw [if_neg hav]
          exact ⟨hb, Or.inr hs⟩
      · rw [if_pos hwr, if_neg hmw, if_neg (by omega)]
        exact ⟨hb, Or.inr hs⟩
    · have ht : 1 ≤ tailGap s := by
        rcases Nat.eq_zero_or_pos (tailGap s) with h0 | h0
        · exact absurd ((tailGap_zero_iff hb).mp h0).symm hwr
        · omega
      rw [if_neg hwr, split_tail_avail hb hs ht]
      by_cases hav : rOff s - frontLen s ≥ ind.length
      · rw [if_pos hav]
        obtain ⟨-, hB, hS⟩ := split_tail_append_rbinv hb hs ht hav
        exact ⟨hB, Or.inr hS⟩
      · rw [if_neg hav]
        exact ⟨hb, Or.inr hs⟩

/-- Freshly initialised buffers satisfy the invariant. -/
theorem init_rbinv {data : List Nat} {k : Nat} (hk : k ≤ 29)
    (hlen : data.length = 2 ^ k) :
    RBInv (ijcringbuffer_init data (2 ^ k)) := by
  refine ⟨⟨⟨k, hk, rfl⟩, rfl, hlen, show (0:Nat) < UINT_MOD by decide,
    show (0:Nat) < UINT_MOD by decide, show (0:Nat) < UINT_MOD by decide⟩,
    Or.inl ?_⟩
  show 0 % 2 ^ k + usub 0 0 ≤ 2 ^ k
  rw [usub_self, Nat.zero_mod]
  exact Nat.zero_le _

/-- `reset` preserves the invariant. -/
theorem reset_rbinv {s : ijcringbuffer} (hi : RBInv s) :
    RBInv (ijcringbuffer_reset s) := by
  obtain ⟨⟨hpow, hm, hd, -, -, -⟩, -⟩ := hi
  refine ⟨⟨hpow, hm, hd, show (0:Nat) < UINT_MOD by decide,
    show (0:Nat) < UINT_MOD by decide, show (0:Nat) < UINT_MOD by decide⟩,
    Or.inl ?_⟩
  show 0 % s.size + usub 0 0 ≤ s.size
  rw [usub_self, Nat.zero_mod]
  exact Nat.zero_le _

/-- Every reachable state satisfies the invariant. -/
theorem reach_rbinv {s : ijcringbuffer} (h : Reach s) : RBInv s := by
  induction h with
  | init data k hk hlen => exact init_rbinv hk hlen
  | reset h ih => exact reset_rbinv ih
  | produce indata h hpos ih => exact produce_rbinv ih hpos
  | consume n h hn ih => exact (consume_rbinv_cs ih hn).1

/-- `produce` is all-or-nothing: on failure the state is returned untouched;
on success the whole run is copied to one in-bounds contiguous region at some
physical offset, the write cursor advances by some `delta ≥ n` modulo `2^32`,
and the read cursor is untouched. -/
theorem produce_atomic {s : ijcringbuffer} {ind : List Nat} (hi : RBInv s) :
    ((ijcringbuffer_produce s ind).2 = false →
      (ijcringbuffer_produce s ind).1 = s) ∧
    ((ijcringbuffer_produce s ind).2 = true →
      ∃ off delta, off + ind.length ≤ s.data.length ∧
        (ijcringbuffer_produce s ind).1.data = writeBytes s.data off ind ∧
        ind.length ≤ delta ∧
        (ijcringbuffer_produce s ind).1.write_cursor
          = (s.write_cursor + delta) % UINT_MOD ∧
        (ijcringbuffer_produce s ind).1.read_cursor = s.read_cursor) := by
  have hb : InvBase s := hi.1
  have hS : 0 < s.size := invBase_size_pos hb
  have hdlen : s.data.length = s.size := hb.2.2.1
  have hmwS : s.write_cursor &&& s.mask < s.size := by
    rw [invBase_and_mask hb]
    exact Nat.mod_lt _ hS
  have hassoc : ∀ u : Nat,
      (s.write_cursor + s.size + u + ind.length) % UINT_MOD
        = (s.write_cursor + (s.size + u + ind.length)) % UINT_MOD := by
    intro u
    have : s.write_cursor + s.size + u + ind.length
        = s.write_cursor + (s.size + u + ind.length) := by omega
    rw [this]
  rcases rb_cases hi with ⟨hsp, hu⟩ | ⟨hsp, hs⟩
  · by_cases hauto : s.write_cursor &&& s.mask ≠ 0
        ∧ s.write_cursor = s.read_cursor ∧ s.size ≥ ind.length
    · rw [produce_eq_auto hsp hauto]
      refine ⟨fun h => by simp [ijcringbuffer__write_to_front] at h, fun _ => ?_⟩
      refine ⟨0, s.size + usub s.size (s.write_cursor &&& s.mask) + ind.length,
        by omega, rfl, by omega, hassoc _, rfl⟩
    · by_cases hgoto : s.write_cursor &&& s.mask = 0
          ∧ ¬s.write_cursor = s.read_cursor
      · rw [produce_eq_goto_front hsp hauto hgoto]
        by_cases hfr : s.read_cursor &&& s.mask ≥ ind.length
        · rw [check_front_eq_pos hfr]
          have hfrS : s.read_cursor &&& s.mask < s.size := by
            rw [invBase_and_mask hb]
            exact Nat.mod_lt _ hS
          refine ⟨fun h => by simp [ijcringbuffer__write_to_front] at h, fun _ => ?_⟩
          refine ⟨0, s.size + usub s.size (s.write_cursor &&& s.mask) + ind.length,
            by omega, rfl, by omega, hassoc _, rfl⟩
        · rw [check_front_eq_neg hfr]
          exact ⟨fun _ => rfl, fun h => by simp [ijcringbuffer__write_to_front] at h⟩
      · by_cases hroom : usub s.size (s.write_cursor &&& s.mask) ≥ ind.length
        · rw [produce_eq_back hsp hauto hgoto hroom]
          obtain ⟨hbd, -, -⟩ := back_rbinv hb hu hauto hgoto hroom
          refine ⟨fun h => by simp [ijcringbuffer__write_to_front] at h, fun _ => ?_⟩
          exact ⟨s.write_cursor &&& s.mask, ind.length,
            by omega, rfl, le_refl _, rfl, rfl⟩
        · rw [produce_eq_late_front hsp hauto hgoto hroom]
          by_cases hfr : s.read_cursor &&& s.mask ≥ ind.length
          · rw [check_front_eq_pos hfr]
            have hfrS : s.read_cursor &&& s.mask < s.size := by
              rw [invBase_and_mask hb]
              exact Nat.mod_lt _ hS
            refine ⟨fun h => by simp [ijcringbuffer__write_to_front] at h, fun _ => ?_⟩
            refine ⟨0, s.size + usub s.size (s.write_cursor &&& s.mask)
              + ind.length, by omega, rfl, by omega, hassoc _, rfl⟩
          · rw [check_front_eq_neg hfr]
            exact ⟨fun _ => rfl, fun h => by simp [ijcringbuffer__write_to_front] at h⟩
  · rw [produce_eq_split hsp]
    by_cases hwr : s.wrap_cursor = s.read_cursor
    · have ht : tailGap s = 0 := (tailGap_zero_iff hb).mpr hwr.symm
      by_cases hmw : s.write_cursor &&& s.mask ≠ 0
      · rw [if_pos hwr, if_pos hmw]
        by_cases hav : usub s.size (s.write_cursor &&& s.mask) ≥ ind.length
        · rw [if_pos hav]
          obtain ⟨hbd, -, -⟩ := split_drained_append_rbinv hb hs ht hmw hav
          refine ⟨fun h => by simp [ijcringbuffer__write_to_front] at h, fun _ => ?_⟩
          exact ⟨s.write_cursor &&& s.mask, ind.length,
            by omega, rfl, le_refl _, rfl, rfl⟩
        · rw [if_neg hav]
          exact ⟨fun _ => rfl, fun h => by simp [ijcringbuffer__write_to_front] at h⟩
      · rw [if_pos hwr, if_neg hmw]
        by_cases h0 : 0 ≥ ind.length
        · rw [if_pos h0]
          refine ⟨fun h => by simp [ijcringbuffer__write_to_front] at h, fun _ => ?_⟩
          exact ⟨s.write_cursor &&& s.mask, ind.length,
            by omega, rfl, le_refl _, rfl, rfl⟩
        · rw [if_neg h0]
          exact ⟨fun _ => rfl, fun h => by simp [ijcringbuffer__write_to_front] at h⟩
    · have ht : 1 ≤ tailGap s := by
        rcases Nat.eq_zero_or_pos (tailGap s) with h0 | h0
        · exact absurd ((tailGap_zero_iff hb).mp h0).symm hwr
        · omega
      rw [if_neg hwr, split_tail_avail hb hs ht]
      by_cases hav : rOff s - frontLen s ≥ ind.length
      · rw [if_pos hav]
        obtain ⟨hbd, -, -⟩ := split_tail_append_rbinv hb hs ht hav
        refine ⟨fun h => by simp [ijcringbuffer__write_to_front] at h, fun _ => ?_⟩
        exact ⟨s.write_cursor &&& s.mask, ind.length,
          by omega, rfl, le_refl _, rfl, rfl⟩
      · rw [if_neg hav]
        exact ⟨fun _ => rfl, fun h => by simp [ijcringbuffer__write_to_front] at h⟩

/-- The total consumable size never exceeds the capacity. -/
theorem cs_le_size {s : ijcringbuffer} (hi : RBInv s) :
    ijcringbuffer_consumeable_size s ≤ s.size := by
  have hb : InvBase s := hi.1
  have hS : 0 < s.size := invBase_size_pos hb
  unfold ijcringbuffer_consumeable_size
  rcases rb_cases hi with ⟨-, hu⟩ | ⟨-, hs⟩
  · rw [cs_unsplit hb hu]
    have := hu
    unfold InvUnsplit at this
    omega
  · rcases Nat.eq_zero_or_pos (tailGap s) with ht | ht
    · rw [cs_drained hb hs ht]
      exact frontLen_le hS
    · rw [cs_tail hb hs ht]
      obtain ⟨hts, -, hcl⟩ := hs
      obtain ⟨-, hfro⟩ := hcl ht
      have hro : rOff s < s.size := invBase_rOff_lt hb
      simp only [Bool.false_eq_true, if_false]
      omega

/-- The total consumable size is zero exactly on the empty buffer. -/
theorem cs_zero_iff {s : ijcringbuffer} (hi : RBInv s) :
    ijcringbuffer_consumeable_size s = 0 ↔ s.write_cursor = s.read_cursor := by
  have hb : InvBase s := hi.1
  have hS : 0 < s.size := invBase_size_pos hb
  unfold ijcringbuffer_consumeable_size
  rcases rb_cases hi with ⟨-, hu⟩ | ⟨-, hs⟩
  · rw [cs_unsplit hb hu]
    unfold gap
    exact usub_eq_zero (invBase_w_lt hb) (invBase_r_lt hb)
  · have hgb := split_gap_bounds hb hs
    have hne : s.write_cursor ≠ s.read_cursor := by
      intro h
      have : gap s = 0 := by
        unfold gap
        rw [h]
        exact usub_self _
      omega
    have hf1 : 1 ≤ frontLen s := frontLen_pos hS
    constructor
    · intro h0
      exfalso
      rcases Nat.eq_zero_or_pos (tailGap s) with ht | ht
      · rw [cs_drained hb hs ht] at h0
        omega
      · rw [cs_tail hb hs ht] at h0
        simp only [Bool.false_eq_true, if_false] at h0
        omega
    · intro h
      exact absurd h hne

/-- `produce` on an empty buffer of a run of length 1..size succeeds, and the
bytes then readable through `peek` are exactly the bytes just written. -/
theorem produce_empty_roundtrip {s : ijcringbuffer} {ind : List Nat}
    (hi : RBInv s) (hempty : s.write_cursor = s.read_cursor)
    (h1 : 1 ≤ ind.length) (hn : ind.length ≤ s.size) :
    (ijcringbuffer_produce s ind).2 = true ∧
    readBytes (ijcringbuffer_produce s ind).1.data
      (ijcringbuffer_peek (ijcringbuffer_produce s ind).1) ind.length = ind := by
  have hb : InvBase s := hi.1
  have hS : 0 < s.size := invBase_size_pos hb
  have hdlen : s.data.length = s.size := hb.2.2.1
  have hgap0 : gap s = 0 := by
    unfold gap
    rw [hempty]
    exact usub_self _
  have hsp : ijcringbuffer__is_split s = false := by
    rcases rb_cases hi with ⟨h, -⟩ | ⟨-, hs⟩
    · exact h
    · exfalso
      have := split_gap_bounds hb hs
      omega
  by_cases hmw : s.write_cursor &&& s.mask ≠ 0
  · -- auto-reset path: the run lands at physical offset 0 and peek follows
    rw [produce_eq_auto hsp ⟨hmw, hempty, hn⟩]
    have hmwm : s.write_cursor % s.size ≠ 0 := by
      rwa [invBase_and_mask hb] at hmw
    obtain ⟨hB, hSp, hread, -⟩ := wtf_rbinv_empty hb hgap0 hmwm h1 hn
    have hsplit2 : ijcringbuffer__is_split
        (ijcringbuffer__write_to_front s ind).1 = true :=
      is_split_true_of_split hB hSp
    refine ⟨rfl, ?_⟩
    unfold ijcringbuffer_peek
    rw [if_pos ⟨hread, hsplit2⟩]
    show readBytes (writeBytes s.data 0 ind) 0 ind.length = ind
    exact readBytes_writeBytes (by omega)
  · -- empty with write offset 0: back write at physical offset 0
    have hmw0 : s.write_cursor &&& s.mask = 0 := by omega
    have hroom : usub s.size (s.write_cursor &&& s.mask) ≥ ind.length := by
      rw [hmw0]
      have : usub s.size 0 = s.size :=
        usub_of_le (invBase_size_lt hb) (Nat.zero_le _)
      omega
    rw [produce_eq_back hsp (by
        intro hc
        exact hmw hc.1) (by
        intro hc
        exact hc.2 hempty) hroom]
    obtain ⟨-, hB, hU⟩ := back_rbinv hb
      (by
        rcases rb_cases hi with ⟨-, hu⟩ | ⟨-, hs⟩
        · exact hu
        · exfalso
          have := split_gap_bounds hb hs
          omega)
      (fun hc => hmw hc.1) (fun hc => hc.2 hempty) hroom
    have hsplit2 : ijcringbuffer__is_split
        ({ s with
           data := (writeBytes s.data (s.write_cursor &&& s.mask) ind),
           write_cursor := (s.write_cursor + ind.length) % UINT_MOD }) = false :=
      is_split_false_of_unsplit hB hU
    refine ⟨rfl, ?_⟩
    unfold ijcringbuffer_peek
    rw [if_neg (by
      rintro ⟨-, hx⟩
      rw [hsplit2] at hx
      exact Bool.false_ne_true hx)]
    have hr0 : s.read_cursor &&& s.mask = 0 := by
      rw [invBase_and_mask hb] at hmw0 ⊢
      rw [← hempty]
      exact hmw0
    show readBytes (writeBytes s.data (s.write_cursor &&& s.mask) ind)
        (s.read_cursor &&& s.mask) ind.length = ind
    rw [hr0, hmw0]
    exact readBytes_writeBytes (by omega)

/-! ## Reachability certificates for the concrete states -/

theorem reach_init8 : Reach (ijcringbuffer_init (List.replicate 8 0) (2 ^ 3)) :=
  Reach.init (List.replicate 8 0) 3 (by decide) (by decide)

theorem reach_emptyOffsetState : Reach emptyOffsetState :=
  Reach.consume 1 (Reach.produce [1] reach_init8 (by decide)) (by decide)

theorem reach_fullWrapState : Reach fullWrapState :=
  Reach.produce (List.replicate 8 7) reach_emptyOffsetState (by decide)

theorem reach_fullBackState : Reach fullBackState :=
  Reach.consume 1
    (Reach.produce [1, 2, 3, 4, 5, 6, 7, 8] reach_init8 (by decide)) (by decide)

/-! ## The claims -/

/-- Claim C1: every call to produce is all-or-nothing — it either returns
success after copying all bytes of the run into one contiguous in-bounds
physical region of storage (the write cursor advancing, the read cursor
untouched), or returns failure leaving the entire ring buffer state exactly
as it was; no partial write ever occurs, for every reachable state and every
run. -/
theorem C1_produce_all_or_nothing (s : ijcringbuffer) (ind : List Nat)
    (h : Reach s) :
    ((ijcringbuffer_produce s ind).2 = false →
      (ijcringbuffer_produce s ind).1 = s) ∧
    ((ijcringbuffer_produce s ind).2 = true →
      ∃ off delta, off + ind.length ≤ s.data.length ∧
        (ijcringbuffer_produce s ind).1.data = writeBytes s.data off ind ∧
        ind.length ≤ delta ∧
        (ijcringbuffer_produce s ind).1.write_cursor
          = (s.write_cursor + delta) % UINT_MOD ∧
        (ijcringbuffer_produce s ind).1.read_cursor = s.read_cursor) :=
  produce_atomic (reach_rbinv h)

/-- Witness for C1 at a freshly initialised capacity-8 buffer and a 2-byte
run. -/
theorem C1_produce_all_or_nothing_witness :
    Reach (ijcringbuffer_init (List.replicate 8 0) (2 ^ 3)) ∧
    (((ijcringbuffer_produce (ijcringbuffer_init (List.replicate 8 0) (2 ^ 3))
        [1, 2]).2 = false →
      (ijcringbuffer_produce (ijcringbuffer_init (List.replicate 8 0) (2 ^ 3))
        [1, 2]).1 = ijcringbuffer_init (List.replicate 8 0) (2 ^ 3)) ∧
    ((ijcringbuffer_produce (ijcringbuffer_init (List.replicate 8 0) (2 ^ 3))
        [1, 2]).2 = true →
      ∃ off delta,
        off + ([1, 2] : List Nat).length
          ≤ (ijcringbuffer_init (List.replicate 8 0) (2 ^ 3)).data.length ∧
        (ijcringbuffer_produce (ijcringbuffer_init (List.replicate 8 0) (2 ^ 3))
          [1, 2]).1.data
          = writeBytes (ijcringbuffer_init (List.replicate 8 0) (2 ^ 3)).data
              off [1, 2] ∧
        ([1, 2] : List Nat).length ≤ delta ∧
        (ijcringbuffer_produce (ijcringbuffer_init (List.replicate 8 0) (2 ^ 3))
          [1, 2]).1.write_cursor
          = ((ijcringbuffer_init (List.replicate 8 0) (2 ^ 3)).write_cursor
              + delta) % UINT_MOD ∧
        (ijcringbuffer_produce (ijcringbuffer_init (List.replicate 8 0) (2 ^ 3))
          [1, 2]).1.read_cursor
          = (ijcringbuffer_init (List.replicate 8 0) (2 ^ 3)).read_cursor)) :=
  ⟨reach_init8, C1_produce_all_or_nothing _ [1, 2] reach_init8⟩

/-- Claim C2: in every reachable state (any sequence of init, reset, produce
and precondition-respecting consume calls) the total consumable size never
exceeds the capacity, and the full predicate returns true exactly when the
total consumable size equals the capacity. -/
theorem C2_consumable_size_bounded (s : ijcringbuffer) (h : Reach s) :
    ijcringbuffer_consumeable_size s ≤ s.size ∧
    (ijcringbuffer_is_full s = true ↔
      ijcringbuffer_consumeable_size s = s.size) := by
  refine ⟨cs_le_size (reach_rbinv h), ?_⟩
  unfold ijcringbuffer_is_full
  simp [beq_iff_eq]

/-- Witness for C2 at the reachable full wrap state. -/
theorem C2_consumable_size_bounded_witness :
    Reach fullWrapState ∧
    (ijcringbuffer_consumeable_size fullWrapState ≤ fullWrapState.size ∧
     (ijcringbuffer_is_full fullWrapState = true ↔
       ijcringbuffer_consumeable_size fullWrapState = fullWrapState.size)) :=
  ⟨reach_fullWrapState, C2_consumable_size_bounded _ reach_fullWrapState⟩

/-- Counterexample to claim C3 as stated: from a reachable state that already
holds 4 bytes, a second successful produce of 4 bytes — with no intervening
consume or produce between it and the peek — does not leave its own bytes
readable through peek: peek still shows the older run.  The universally
quantified round-trip property therefore fails on non-empty states. -/
theorem C3_roundtrip_counterexample :
    Reach (ijcringbuffer_produce
      (ijcringbuffer_init (List.replicate 8 0) (2 ^ 3)) [1, 2, 3, 4]).1 ∧
    ((ijcringbuffer_produce
        (ijcringbuffer_produce
          (ijcringbuffer_init (List.replicate 8 0) (2 ^ 3)) [1, 2, 3, 4]).1
        [5, 6, 7, 8]).2 = true ∧
     ¬(readBytes
        (ijcringbuffer_produce
          (ijcringbuffer_produce
            (ijcringbuffer_init (List.replicate 8 0) (2 ^ 3)) [1, 2, 3, 4]).1
          [5, 6, 7, 8]).1.data
        (ijcringbuffer_peek
          (ijcringbuffer_produce
            (ijcringbuffer_produce
              (ijcringbuffer_init (List.replicate 8 0) (2 ^ 3)) [1, 2, 3, 4]).1
            [5, 6, 7, 8]).1)
        4 = [5, 6, 7, 8])) :=
  ⟨Reach.produce [1, 2, 3, 4] reach_init8 (by decide), by decide⟩

/-- Claim C3 (amended: the produce must start from an empty buffer, which is
the only situation in which peek can show the just-written run): for every
reachable empty state and every run length from 1 to the capacity, produce
succeeds and the bytes readable through peek immediately afterwards are
byte-for-byte the bytes written. -/
theorem C3_roundtrip_from_empty (s : ijcringbuffer) (ind : List Nat)
    (h : Reach s) (hempty : ijcringbuffer_is_empty s = true)
    (h1 : 1 ≤ ind.length) (hn : ind.length ≤ s.size) :
    (ijcringbuffer_produce s ind).2 = true ∧
    readBytes (ijcringbuffer_produce s ind).1.data
      (ijcringbuffer_peek (ijcringbuffer_produce s ind).1) ind.length = ind := by
  have hw : s.write_cursor = s.read_cursor := by
    simpa [ijcringbuffer_is_empty] using hempty
  exact produce_empty_roundtrip (reach_rbinv h) hw h1 hn

/-- Witness for the amended C3: a 3-byte run produced into the reachable
empty state whose write offset is 1 (the auto-reset path). -/
theorem C3_roundtrip_from_empty_witness :
    Reach emptyOffsetState ∧
    ijcringbuffer_is_empty emptyOffsetState = true ∧
    1 ≤ ([9, 8, 7] : List Nat).length ∧
    ([9, 8, 7] : List Nat).length ≤ emptyOffsetState.size ∧
    ((ijcringbuffer_produce emptyOffsetState [9, 8, 7]).2 = true ∧
     readBytes (ijcringbuffer_produce emptyOffsetState [9, 8, 7]).1.data
       (ijcringbuffer_peek (ijcringbuffer_produce emptyOffsetState [9, 8, 7]).1)
       ([9, 8, 7] : List Nat).length = [9, 8, 7]) :=
  ⟨reach_emptyOffsetState, by decide, by decide, by decide,
   C3_roundtrip_from_empty _ [9, 8, 7] reach_emptyOffsetState (by decide)
     (by decide) (by decide)⟩

/-- Claim C4: for every state, the implementation's consumable-size queries
compute exactly the spec's three-case formulas (stated here for all states,
which covers every reachable one). -/
theorem C4_consumable_size_formulas (s : ijcringbuffer) :
    ijcringbuffer_consumeable_size_continuous s
      = spec_consumeable_size_continuous s ∧
    ijcringbuffer_consumeable_size s = spec_consumeable_size s := by
  constructor
  · unfold ijcringbuffer_consumeable_size_continuous
      ijcringbuffer__consumeable_size spec_consumeable_size_continuous
    rcases hsp : ijcringbuffer__is_split s with - | - <;>
      by_cases hrw : s.read_cursor = s.wrap_cursor <;>
      simp [hsp, hrw]
  · unfold ijcringbuffer_consumeable_size
      ijcringbuffer__consumeable_size spec_consumeable_size
    rcases hsp : ijcringbuffer__is_split s with - | - <;>
      by_cases hrw : s.read_cursor = s.wrap_cursor <;>
      simp [hsp, hrw]

/-- Counterexample to claim C5 as stated: in the reachable state whose front
run fills the whole buffer (read = wrap = 1, write = 24, capacity 8), a
split-collapse consume of n = 8 bytes is legal (8 = continuous consumable
size) but afterwards read_cursor & mask is 0, not n = 8 as the claim
asserts. -/
theorem C5_collapse_mask_counterexample :
    Reach fullWrapState ∧
    (fullWrapState.read_cursor = fullWrapState.wrap_cursor ∧
     ijcringbuffer__is_split fullWrapState = true ∧
     8 ≤ ijcringbuffer_consumeable_size_continuous fullWrapState ∧
     ¬((ijcringbuffer_consume fullWrapState 8).read_cursor &&&
        (ijcringbuffer_consume fullWrapState 8).mask = 8)) :=
  ⟨reach_fullWrapState, by decide⟩

/-- Claim C5 (amended: after the split-collapse the physical projection of
the read cursor equals n & mask — the class of n modulo the capacity — which
coincides with n whenever n < size but is 0 at n = size): for every reachable
state and consume within the continuous precondition, in the collapse case
(split with the tail drained) the read cursor advances by exactly
size + (size - (read_cursor & mask)) + n modulo 2^32, its new physical
projection is n & mask, and the circular distance to the write cursor is back
at most size; in every other case the read cursor advances by exactly n
modulo 2^32. -/
theorem C5_consume_cursor_advancement (s : ijcringbuffer) (n : Nat)
    (h : Reach s) (hn : n ≤ ijcringbuffer_consumeable_size_continuous s) :
    ((s.read_cursor = s.wrap_cursor ∧ ijcringbuffer__is_split s = true) →
      (ijcringbuffer_consume s n).read_cursor
        = (s.read_cursor + s.size + usub s.size (s.read_cursor &&& s.mask) + n)
            % UINT_MOD ∧
      ((ijcringbuffer_consume s n).read_cursor &&&
        (ijcringbuffer_consume s n).mask) = n &&& s.mask ∧
      ijcringbuffer__difference (ijcringbuffer_consume s n).read_cursor
        s.write_cursor ≤ s.size) ∧
    (¬(s.read_cursor = s.wrap_cursor ∧ ijcringbuffer__is_split s = true) →
      (ijcringbuffer_consume s n).read_cursor
        = (s.read_cursor + n) % UINT_MOD) := by
  have hi := reach_rbinv h
  have hb : InvBase s := hi.1
  constructor
  · rintro ⟨h1, h2⟩
    have hs : InvSplit s := by
      rcases rb_cases hi with ⟨hf, -⟩ | ⟨-, hs⟩
      · rw [hf] at h2
        exact absurd h2 Bool.false_ne_true
      · exact hs
    have ht : tailGap s = 0 := (tailGap_zero_iff hb).mpr h1
    have hn2 : n ≤ frontLen s := by
      unfold ijcringbuffer_consumeable_size_continuous at hn
      rwa [cs_drained hb hs ht] at hn
    obtain ⟨hr, hB2, hU2, hg2, ho2⟩ := consume_spec_collapse hb hs ht hn2
    refine ⟨hr, ?_, ?_⟩
    · have hmask : (ijcringbuffer_consume s n).mask = s.mask := by
        rw [consume_eq_collapse h1 h2]
      have hsz : (ijcringbuffer_consume s n).size = s.size := by
        rw [consume_eq_collapse h1 h2]
      have ho3 : (ijcringbuffer_consume s n).read_cursor
          % (ijcringbuffer_consume s n).size = n % s.size := ho2
      rw [hsz] at ho3
      rw [hmask, invBase_and_mask hb, invBase_and_mask hb]
      exact ho3
    · have hwc : (ijcringbuffer_consume s n).write_cursor = s.write_cursor := by
        rw [consume_eq_collapse h1 h2]
      have hg3 : usub (ijcringbuffer_consume s n).write_cursor
          (ijcringbuffer_consume s n).read_cursor = frontLen s - n := hg2
      rw [hwc] at hg3
      calc ijcringbuffer__difference (ijcringbuffer_consume s n).read_cursor
            s.write_cursor
          ≤ usub s.write_cursor (ijcringbuffer_consume s n).read_cursor :=
            diff_le_usub _ _
      _ = frontLen s - n := hg3
      _ ≤ s.size := by
          have := frontLen_le (invBase_size_pos hb)
          omega
  · intro hc
    rw [consume_eq_ordinary hc]

/-- Witness for the amended C5 at the full wrap state with n = 8 (collapse
case with a full-capacity front run). -/
theorem C5_consume_cursor_advancement_witness :
    Reach fullWrapState ∧
    8 ≤ ijcringbuffer_consumeable_size_continuous fullWrapState ∧
    (((fullWrapState.read_cursor = fullWrapState.wrap_cursor ∧
       ijcringbuffer__is_split fullWrapState = true) →
      (ijcringbuffer_consume fullWrapState 8).read_cursor
        = (fullWrapState.read_cursor + fullWrapState.size
            + usub fullWrapState.size
                (fullWrapState.read_cursor &&& fullWrapState.mask) + 8)
            % UINT_MOD ∧
      ((ijcringbuffer_consume fullWrapState 8).read_cursor &&&
        (ijcringbuffer_consume fullWrapState 8).mask)
        = 8 &&& fullWrapState.mask ∧
      ijcringbuffer__difference
        (ijcringbuffer_consume fullWrapState 8).read_cursor
        fullWrapState.write_cursor ≤ fullWrapState.size) ∧
    (¬(fullWrapState.read_cursor = fullWrapState.wrap_cursor ∧
       ijcringbuffer__is_split fullWrapState = true) →
      (ijcringbuffer_consume fullWrapState 8).read_cursor
        = (fullWrapState.read_cursor + 8) % UINT_MOD)) :=
  ⟨reach_fullWrapState, by decide,
   C5_consume_cursor_advancement fullWrapState 8 reach_fullWrapState
     (by decide)⟩

/-- Claim C6 evidence (code bug): from the reachable empty state with write
offset 1, produce of a full-capacity run takes the auto-reset write-to-front
path (all of its entry conditions hold, and the call succeeds), yet the
resulting write cursor's physical projection is 0 and not the run length 8 —
the post-condition the code itself asserts
(IJCRB_assert((write_cursor & mask) == insize)) is violated, so debug builds
abort on this legal call.  The split signal itself does hold afterwards. -/
theorem C6_auto_reset_assert_violation :
    Reach emptyOffsetState ∧
    (ijcringbuffer__is_split emptyOffsetState = false ∧
     emptyOffsetState.write_cursor &&& emptyOffsetState.mask ≠ 0 ∧
     emptyOffsetState.write_cursor = emptyOffsetState.read_cursor ∧
     emptyOffsetState.size ≥ (List.replicate 8 7).length ∧
     (ijcringbuffer_produce emptyOffsetState (List.replicate 8 7)).2 = true ∧
     ijcringbuffer__is_split fullWrapState = true ∧
     ¬(fullWrapState.write_cursor &&& fullWrapState.mask
        = (List.replicate 8 7).length)) :=
  ⟨reach_emptyOffsetState, by decide⟩

/-- Counterexample to claim C7 as stated: the reachable unsplit state with
read = 1, write = 8 (capacity 8) is not empty, so the auto-reset shortcut
does not apply, and the back room size - (write & mask) = 8 is at least the
run length 1; yet produce does not write at the back: it succeeds through the
write-to-front path and advances the write cursor by 17, not by 1.  The
claim misses the code's additional guard (write & mask) == 0 && !is_empty
that redirects this case to the front. -/
theorem C7_back_write_counterexample :
    Reach fullBackState ∧
    (ijcringbuffer__is_split fullBackState = false ∧
     ¬(fullBackState.write_cursor &&& fullBackState.mask ≠ 0 ∧
       fullBackState.write_cursor = fullBackState.read_cursor ∧
       fullBackState.size ≥ ([9] : List Nat).length) ∧
     usub fullBackState.size
       (fullBackState.write_cursor &&& fullBackState.mask)
       ≥ ([9] : List Nat).length ∧
     (ijcringbuffer_produce fullBackState [9]).2 = true ∧
     ¬((ijcringbuffer_produce fullBackState [9]).1.write_cursor
        = (fullBackState.write_cursor + ([9] : List Nat).length) % UINT_MOD)) :=
  ⟨reach_fullBackState, by decide⟩

/-- Claim C7 (amended: the state must additionally not be in the
write-offset-0-and-non-empty case, which the code sends to the front path):
for every reachable unsplit state in which the auto-reset shortcut does not
apply and it is not the case that the write offset is 0 with a non-empty
buffer, a produce with size - (write & mask) ≥ n writes the n bytes at
physical offset write & mask, advances the write cursor by exactly n modulo
2^32, leaves the read and wrap cursors untouched, and returns success. -/
theorem C7_back_write (s : ijcringbuffer) (ind : List Nat) (h : Reach s)
    (hsp : ijcringbuffer__is_split s = false)
    (hna : ¬(s.write_cursor &&& s.mask ≠ 0 ∧ s.write_cursor = s.read_cursor
             ∧ s.size ≥ ind.length))
    (hnf : ¬(s.write_cursor &&& s.mask = 0 ∧ ¬s.write_cursor = s.read_cursor))
    (hroom : usub s.size (s.write_cursor &&& s.mask) ≥ ind.length) :
    (ijcringbuffer_produce s ind).2 = true ∧
    (ijcringbuffer_produce s ind).1.data
      = writeBytes s.data (s.write_cursor &&& s.mask) ind ∧
    (ijcringbuffer_produce s ind).1.write_cursor
      = (s.write_cursor + ind.length) % UINT_MOD ∧
    (ijcringbuffer_produce s ind).1.read_cursor = s.read_cursor ∧
    (ijcringbuffer_produce s ind).1.wrap_cursor = s.wrap_cursor := by
  rw [produce_eq_back hsp hna hnf hroom]
  exact ⟨rfl, rfl, rfl, rfl, rfl⟩

/-- Witness for the amended C7 at a freshly initialised capacity-8 buffer
and a 5-byte run. -/
theorem C7_back_write_witness :
    Reach (ijcringbuffer_init (List.replicate 8 0) (2 ^ 3)) ∧
    ((ijcringbuffer_produce (ijcringbuffer_init (List.replicate 8 0) (2 ^ 3))
        [1, 2, 3, 4, 5]).2 = true ∧
     (ijcringbuffer_produce (ijcringbuffer_init (List.replicate 8 0) (2 ^ 3))
        [1, 2, 3, 4, 5]).1.data
       = writeBytes (ijcringbuffer_init (List.replicate 8 0) (2 ^ 3)).data
           ((ijcringbuffer_init (List.replicate 8 0) (2 ^ 3)).write_cursor &&&
             (ijcringbuffer_init (List.replicate 8 0) (2 ^ 3)).mask)
           [1, 2, 3, 4, 5] ∧
     (ijcringbuffer_produce (ijcringbuffer_init (List.replicate 8 0) (2 ^ 3))
        [1, 2, 3, 4, 5]).1.write_cursor
       = ((ijcringbuffer_init (List.replicate 8 0) (2 ^ 3)).write_cursor
           + ([1, 2, 3, 4, 5] : List Nat).length) % UINT_MOD ∧
     (ijcringbuffer_produce (ijcringbuffer_init (List.replicate 8 0) (2 ^ 3))
        [1, 2, 3, 4, 5]).1.read_cursor
       = (ijcringbuffer_init (List.replicate 8 0) (2 ^ 3)).read_cursor ∧
     (ijcringbuffer_produce (ijcringbuffer_init (List.replicate 8 0) (2 ^ 3))
        [1, 2, 3, 4, 5]).1.wrap_cursor
       = (ijcringbuffer_init (List.replicate 8 0) (2 ^ 3)).wrap_cursor) :=
  ⟨reach_init8,
   C7_back_write _ [1, 2, 3, 4, 5] reach_init8 (by decide) (by decide)
     (by decide) (by decide)⟩

/-- Claim C8: in every reachable state, peek returns the physical offset
read_cursor & mask, except in the split state with the tail fully drained
(read = wrap), where it returns offset 0; the returned offset always lies
within the storage region, even on an empty buffer.  In this embedding peek
is a pure function of the state, so it modifies no cursor and no stored
byte. -/
theorem C8_peek_formula (s : ijcringbuffer) (h : Reach s) :
    ijcringbuffer_peek s
      = (if ijcringbuffer__is_split s = true ∧ s.read_cursor = s.wrap_cursor
         then 0 else s.read_cursor &&& s.mask) ∧
    ijcringbuffer_peek s < s.size := by
  have hb : InvBase s := (reach_rbinv h).1
  constructor
  · unfold ijcringbuffer_peek
    by_cases h1 : s.read_cursor = s.wrap_cursor <;>
      by_cases h2 : ijcringbuffer__is_split s = true
    · rw [if_pos ⟨h1, h2⟩, if_pos ⟨h2, h1⟩]
    · rw [if_neg (fun hc => h2 hc.2), if_neg (fun hc => h2 hc.1)]
    · rw [if_neg (fun hc => h1 hc.1), if_neg (fun hc => h1 hc.2)]
    · rw [if_neg (fun hc => h1 hc.1), if_neg (fun hc => h2 hc.1)]
  · unfold ijcringbuffer_peek
    split
    · exact invBase_size_pos hb
    · rw [invBase_and_mask hb]
      exact Nat.mod_lt _ (invBase_size_pos hb)

/-- Witness for C8 at the reachable split state with a drained tail. -/
theorem C8_peek_formula_witness :
    Reach fullWrapState ∧
    (ijcringbuffer_peek fullWrapState
       = (if ijcringbuffer__is_split fullWrapState = true ∧
             fullWrapState.read_cursor = fullWrapState.wrap_cursor
          then 0 else fullWrapState.read_cursor &&& fullWrapState.mask) ∧
     ijcringbuffer_peek fullWrapState < fullWrapState.size) :=
  ⟨reach_fullWrapState, C8_peek_formula _ reach_fullWrapState⟩

/-- Claim C9: in every reachable state the total consumable size is 0 exactly
when the buffer is empty (write = read); in particular a split state always
has a nonzero total consumable size. -/
theorem C9_empty_iff_zero_size (s : ijcringbuffer) (h : Reach s) :
    (ijcringbuffer_consumeable_size s = 0 ↔ ijcringbuffer_is_empty s = true) ∧
    (ijcringbuffer__is_split s = true →
      ijcringbuffer_consumeable_size s ≠ 0) := by
  have hi := reach_rbinv h
  have hb : InvBase s := hi.1
  constructor
  · rw [cs_zero_iff hi]
    unfold ijcringbuffer_is_empty
    simp [beq_iff_eq]
  · intro hsp hcs
    have hwr : s.write_cursor = s.read_cursor := (cs_zero_iff hi).mp hcs
    have hgap0 : gap s = 0 := by
      unfold gap
      rw [hwr]
      exact usub_self _
    rcases rb_cases hi with ⟨hf, -⟩ | ⟨-, hs⟩
    · rw [hf] at hsp
      exact Bool.false_ne_true hsp
    · have := split_gap_bounds hb hs
      omega

/-- Witness for C9 at the reachable split state with a drained tail. -/
theorem C9_empty_iff_zero_size_witness :
    Reach fullWrapState ∧
    ((ijcringbuffer_consumeable_size fullWrapState = 0 ↔
       ijcringbuffer_is_empty fullWrapState = true) ∧
     (ijcringbuffer__is_split fullWrapState = true →
       ijcringbuffer_consumeable_size fullWrapState ≠ 0)) :=
  ⟨reach_fullWrapState, C9_empty_iff_zero_size _ reach_fullWrapState⟩

/-- Claim C10: for every reachable state and every consume respecting the
continuous-size precondition, the total consumable size after the call is
exactly its value before the call minus n, in both branches of consume. -/
theorem C10_consume_decreases_size (s : ijcringbuffer) (n : Nat)
    (h : Reach s) (hn : n ≤ ijcringbuffer_consumeable_size_continuous s) :
    ijcringbuffer_consumeable_size (ijcringbuffer_consume s n)
      = ijcringbuffer_consumeable_size s - n :=
  (consume_rbinv_cs (reach_rbinv h) hn).2

/-- Witness for C10: a collapse consume of 3 bytes at the full wrap state. -/
theorem C10_consume_decreases_size_witness :
    Reach fullWrapState ∧
    3 ≤ ijcringbuffer_consumeable_size_continuous fullWrapState ∧
    ijcringbuffer_consumeable_size (ijcringbuffer_consume fullWrapState 3)
      = ijcringbuffer_consumeable_size fullWrapState - 3 :=
  ⟨reach_fullWrapState, by decide,
   C10_consume_decreases_size fullWrapState 3 reach_fullWrapState (by decide)⟩
